import Mathlib

/-!
# Verification of the RISC-V PMP subsystem (`arch/riscv/core/pmp.c`)

A shallow embedding of the PMP (Physical Memory Protection) driver:

* the region encoder `set_pmp_entry` and the decoder implicit in
  `print_pmp_entries`;
* the register writer `write_pmp_entries` (its panic guard and the
  trailing-config-byte clearing loop);
* the u-mode lifecycle functions `z_riscv_pmp_usermode_prepare`,
  `resync_pmp_domain`, `z_riscv_pmp_usermode_enable` and the memory-domain
  generation counter hooks;
* the access checker `arch_buffer_validate`.

Machine integers (`uintptr_t`, `size_t`, `ulong_t`) are `XLEN`-bit unsigned
values; they are modelled as `Nat` together with an explicit word width `w`
(32 or 64), reducing modulo `2 ^ w` exactly where the C arithmetic wraps.
The `pmp_cfg` register array is accessed by the C code exclusively through
its byte view `pmp_n_cfg = (uint8_t *)pmp_cfg`; the model therefore keeps
the configuration as the byte-indexed array directly.  Register arrays are
modelled as total functions `Nat → Nat` (the C arrays, with untouched slots
left unconstrained).
-/

namespace Pmp

/-! ## PMP configuration byte layout

Modelled from the spec: the config byte decomposes into a permission set
(`R`, `W`, `X`), an address match-mode field `A` (off / top-of-range /
naturally-aligned-4 / naturally-aligned-power-of-two) and a lock flag `L`.
The numeric values are the RISC-V privileged-architecture encodings used by
the included header `pmp.h`, which is not part of this repository's sources.
-/

def PMP_R : Nat := 0x01
def PMP_W : Nat := 0x02
def PMP_X : Nat := 0x04
def PMP_A : Nat := 0x18
def PMP_TOR : Nat := 0x08
def PMP_NA4 : Nat := 0x10
def PMP_NAPOT : Nat := 0x18
def PMP_L : Nat := 0x80

/-- The `R|W|X|L` permission mask that `print_pmp_entries` renders. -/
def PMP_PERMS : Nat := PMP_R ||| PMP_W ||| PMP_X ||| PMP_L

/-! ## Word arithmetic

`wadd`/`wsub` are addition and subtraction of `w`-bit unsigned C integers
(wrapping modulo `2 ^ w`). -/

def wadd (w a b : Nat) : Nat := (a + b) % 2 ^ w

def wsub (w a b : Nat) : Nat := (a + (2 ^ w - b % 2 ^ w)) % 2 ^ w

/-- Pointwise array update (one C array store). -/
def upd (f : Nat → Nat) (i v : Nat) : Nat → Nat :=
  fun j => if j = i then v else f j

/-! ## Region encoder: `set_pmp_entry` and the decoding in `print_pmp_entries` -/

/-- `#define PMP_ADDR(addr) ((addr) >> 2)` -/
def PMP_ADDR (addr : Nat) : Nat := addr >>> 2

/-- `#define NAPOT_RANGE(size) (((size) - 1) >> 1)` — the `size - 1` wraps
for `size = 0` (the whole-address-space sentinel). -/
def NAPOT_RANGE (w size : Nat) : Nat := wsub w size 1 >>> 1

/-- `#define PMP_ADDR_NAPOT(addr, size) PMP_ADDR(addr | NAPOT_RANGE(size))` -/
def PMP_ADDR_NAPOT (w addr size : Nat) : Nat :=
  PMP_ADDR (addr ||| NAPOT_RANGE w size)

/-- Result of `set_pmp_entry`: the returned `bool`, the updated `*index_p`
cursor and the (byte-view) shadow arrays after the call. -/
structure SetResult where
  ok : Bool
  index : Nat
  pmp_addr : Nat → Nat
  pmp_cfg : Nat → Nat

/-- `set_pmp_entry` from `pmp.c`: pick TOR chaining, NA4/NAPOT, or an
OFF-marker plus TOR pair; fail (leaving everything untouched) when out of
slots. -/
def set_pmp_entry (w index perm start size : Nat)
    (pmp_addr pmp_cfg : Nat → Nat) (index_limit : Nat) : SetResult :=
  if index ≥ index_limit then
    ⟨false, index, pmp_addr, pmp_cfg⟩
  else if (index = 0 ∧ start = 0) ∨
      (index ≠ 0 ∧ pmp_addr (index - 1) = PMP_ADDR start) then
    ⟨true, index + 1,
      upd pmp_addr index (PMP_ADDR (wadd w start size)),
      upd pmp_cfg index (perm ||| PMP_TOR)⟩
  else if size &&& wsub w size 1 = 0 ∧ start &&& wsub w size 1 = 0 then
    ⟨true, index + 1,
      upd pmp_addr index (PMP_ADDR_NAPOT w start size),
      upd pmp_cfg index (perm ||| (if size = 4 then PMP_NA4 else PMP_NAPOT))⟩
  else if index + 1 ≥ index_limit then
    ⟨false, index, pmp_addr, pmp_cfg⟩
  else
    ⟨true, index + 2,
      upd (upd pmp_addr index (PMP_ADDR start))
        (index + 1) (PMP_ADDR (wadd w start size)),
      upd (upd pmp_cfg index 0) (index + 1) (perm ||| PMP_TOR)⟩

/-- The per-entry address-range decoding performed by `print_pmp_entries`:
the `(start, end)` pair it computes for slot `index` (inclusive range;
`(0, 0)` for an OFF/unrecognized entry, printed without a range). -/
def decodeEntry (w : Nat) (pmp_addr pmp_n_cfg : Nat → Nat)
    (index : Nat) : Nat × Nat :=
  let a := pmp_n_cfg index &&& PMP_A
  if a = PMP_TOR then
    ((if index = 0 then 0 else pmp_addr (index - 1) <<< 2 % 2 ^ w),
     wsub w (pmp_addr index <<< 2 % 2 ^ w) 1)
  else if a = PMP_NA4 then
    (pmp_addr index <<< 2 % 2 ^ w, wadd w (pmp_addr index <<< 2 % 2 ^ w) 3)
  else if a = PMP_NAPOT then
    let tmp := pmp_addr index <<< 2 % 2 ^ w ||| 0x3
    (tmp &&& wadd w tmp 1, tmp ||| wadd w tmp 1)
  else
    (0, 0)

/-- The permission (and lock) bits `print_pmp_entries` renders for a config
byte. -/
def decodePerm (cfg : Nat) : Nat := cfg &&& PMP_PERMS

/-! ## Register writer: `write_pmp_entries` -/

/-- Observable outcome of `write_pmp_entries`: either `k_panic()` fires
before anything is touched, or the external primitive
`z_riscv_write_pmp_entries` is invoked with the given arguments (the config
array possibly having had its trailing bytes cleared first). -/
inductive WriteOutcome where
  | panicked : WriteOutcome
  | invoked (start e : Nat) (clear_trailing : Bool)
      (pmp_addr pmp_cfg : Nat → Nat) : WriteOutcome

/-- The trailing-clear loop of `write_pmp_entries`:
`for (index = end; index % PMPCFG_STRIDE != 0; index++) pmp_n_cfg[index] = 0;`
(`stride = PMPCFG_STRIDE = sizeof(ulong_t)`). -/
def clear_tail (stride : Nat) (pmp_n_cfg : Nat → Nat) (index : Nat) :
    Nat → Nat :=
  if hcond : stride = 0 ∨ index % stride = 0 then
    pmp_n_cfg
  else
    clear_tail stride (upd pmp_n_cfg index 0) (index + 1)
termination_by (stride - index % stride) % stride
decreasing_by
  push_neg at hcond
  obtain ⟨hs, hm⟩ := hcond
  have h1 : index % stride < stride := Nat.mod_lt _ (by omega)
  have key : (index + 1) % stride = (index % stride + 1) % stride :=
    (Nat.mod_add_mod index stride 1).symm
  have e3 : (stride - index % stride) % stride = stride - index % stride :=
    Nat.mod_eq_of_lt (by omega)
  rcases Nat.lt_or_ge (index % stride + 1) stride with h2 | h2
  · have e1 : (index + 1) % stride = index % stride + 1 :=
      key.trans (Nat.mod_eq_of_lt h2)
    rw [e1, e3, Nat.mod_eq_of_lt (by omega)]
    omega
  · have h3 : index % stride + 1 = stride := by omega
    have e1 : (index + 1) % stride = 0 := by
      rw [key, h3, Nat.mod_self]
    rw [e1, e3, Nat.sub_zero, Nat.mod_self]
    omega

/-- `write_pmp_entries` from `pmp.c`: the paranoid range check (kept even
with assertions compiled out), the trailing-config-byte clear, then the call
to the external hardware write primitive. -/
def write_pmp_entries (stride start e : Nat) (clear_trailing : Bool)
    (pmp_addr pmp_cfg : Nat → Nat) (index_limit : Nat) : WriteOutcome :=
  if start ≥ e ∨ e > index_limit then
    .panicked
  else
    let cfg := if clear_trailing then clear_tail stride pmp_cfg e else pmp_cfg
    .invoked start e clear_trailing pmp_addr cfg

/-! ## Threads, memory domains, and the u-mode lifecycle -/

/-- `struct k_mem_partition`: `{start, size, attr.pmp_attr}`. -/
structure MemPartition where
  start : Nat
  size : Nat
  pmp_attr : Nat
deriving DecidableEq

/-- `struct k_mem_domain` as consumed by this file: the partition array
(modelled as the list of array cells), `num_partitions` (the count of
non-empty partitions maintained by the kernel) and the per-domain
generation counter `arch.pmp_update_nr`. -/
structure MemDomain where
  partitions : List MemPartition
  num_partitions : Nat
  pmp_update_nr : Nat

/-- The u-mode PMP portion of `struct k_thread`: stack bounds plus the
`arch.u_mode_*` fields used by this file. `u_mode_pmpcfg_regs` is kept in
its byte view (see the file header). -/
structure Thread where
  stack_start : Nat
  stack_size : Nat
  u_mode_pmpaddr_regs : Nat → Nat
  u_mode_pmpcfg_regs : Nat → Nat
  u_mode_pmp_domain_offset : Nat
  u_mode_pmp_end_index : Nat
  u_mode_pmp_update_nr : Nat

/-- `arch_mem_domain_init`: zero the generation counter. -/
def arch_mem_domain_init (d : MemDomain) : MemDomain :=
  { d with pmp_update_nr := 0 }

/-- `arch_mem_domain_partition_add` / `..._remove`: bump the generation
counter (a 32-bit unsigned field in the arch descriptor, so it wraps). -/
def arch_mem_domain_partition_add (d : MemDomain) : MemDomain :=
  { d with pmp_update_nr := (d.pmp_update_nr + 1) % 2 ^ 32 }

/-- `z_riscv_pmp_usermode_prepare`: seed the global config prefix
(`global_pmp_cfg[0]`, i.e. the first `PMPCFG_STRIDE` config bytes), encode
the thread's own stack with `PMP_R | PMP_W` starting at
`global_pmp_end_index`, and record the domain offset / end index / a zero
last-synced generation. -/
def z_riscv_pmp_usermode_prepare (w slots stride global_pmp_end_index : Nat)
    (global_pmp_cfg : Nat → Nat) (t : Thread) : Thread :=
  let cfg0 : Nat → Nat := fun i =>
    if i < stride then global_pmp_cfg i else t.u_mode_pmpcfg_regs i
  let r := set_pmp_entry w global_pmp_end_index (PMP_R ||| PMP_W)
    t.stack_start t.stack_size t.u_mode_pmpaddr_regs cfg0 slots
  { t with
    u_mode_pmpaddr_regs := r.pmp_addr
    u_mode_pmpcfg_regs := r.pmp_cfg
    u_mode_pmp_domain_offset := r.index
    u_mode_pmp_end_index := r.index
    u_mode_pmp_update_nr := 0 }

/-- The partition loop of `resync_pmp_domain`:
`for (p_idx = 0; remaining_partitions > 0; p_idx++)`, skipping empty
partitions, logging-and-skipping non-empty partitions smaller than 4 bytes,
and encoding the rest (the `__ASSERT(ok, ...)` on slot exhaustion is a
no-op in a release build and `ok` is otherwise ignored).  Walking past the
end of the partition array — which the C loop does whenever fewer than
`remaining` non-empty cells exist — is an out-of-bounds access, modelled as
`none`.  The result carries the final cursor, the two shadow arrays and the
list of non-empty partitions the loop visited, in visit order. -/
def resync_loop (w slots : Nat) :
    List MemPartition → Nat → Nat → (Nat → Nat) → (Nat → Nat) →
    Option (Nat × (Nat → Nat) × (Nat → Nat) × List MemPartition)
  | _, 0, index, a, c => some (index, a, c, [])
  | [], _ + 1, _, _, _ => none
  | p :: ps, remaining + 1, index, a, c =>
    if p.size = 0 then
      resync_loop w slots ps (remaining + 1) index a c
    else if p.size < 4 then
      (resync_loop w slots ps remaining index a c).map
        (fun x => (x.1, x.2.1, x.2.2.1, p :: x.2.2.2))
    else
      let s := set_pmp_entry w index p.pmp_attr p.start p.size a c slots
      (resync_loop w slots ps remaining s.index s.pmp_addr s.pmp_cfg).map
        (fun x => (x.1, x.2.1, x.2.2.1, p :: x.2.2.2))

/-- `resync_pmp_domain`: convert the domain's partitions into PMP entries
starting at the thread's domain offset, then record the new end index and
the domain's current generation. -/
def resync_pmp_domain (w slots : Nat) (t : Thread) (d : MemDomain) :
    Option Thread :=
  (resync_loop w slots d.partitions d.num_partitions
      t.u_mode_pmp_domain_offset t.u_mode_pmpaddr_regs
      t.u_mode_pmpcfg_regs).map fun x =>
    { t with
      u_mode_pmpaddr_regs := x.2.1
      u_mode_pmpcfg_regs := x.2.2.1
      u_mode_pmp_end_index := x.1
      u_mode_pmp_update_nr := d.pmp_update_nr }

/-- Outcome of `z_riscv_pmp_usermode_enable`: early return when the u-mode
store was never prepared; out-of-bounds partition walk inside
`resync_pmp_domain`; `k_panic()` inside `write_pmp_entries`; or a normal
return.  `resynced` records whether `resync_pmp_domain` was invoked. -/
inductive EnableResult where
  | notPrepared (t : Thread)
  | outOfBounds
  | aborted (resynced : Bool)
  | done (t : Thread) (resynced : Bool)

/-- Whether the `enable` call invoked `resync_pmp_domain`. -/
def EnableResult.resynced? : EnableResult → Bool
  | .notPrepared _ => false
  | .outOfBounds => true
  | .aborted r => r
  | .done _ r => r

/-- The thread state after a normal return, if any. -/
def EnableResult.thread? : EnableResult → Option Thread
  | .done t _ => some t
  | _ => none

/-- `z_riscv_pmp_usermode_enable`: early-return if unprepared, resync iff
the generation counters differ, then write `[global_pmp_end_index, end)`
with trailing clear (which zeroes the trailing config bytes of the
thread's shadow store in place). -/
def z_riscv_pmp_usermode_enable (w slots stride global_pmp_end_index : Nat)
    (t : Thread) (d : MemDomain) : EnableResult :=
  if t.u_mode_pmp_end_index = 0 then
    .notPrepared t
  else
    let step : Option (Thread × Bool) :=
      if t.u_mode_pmp_update_nr ≠ d.pmp_update_nr then
        (resync_pmp_domain w slots t d).map (fun t' => (t', true))
      else
        some (t, false)
    match step with
    | none => .outOfBounds
    | some (t', r) =>
      match write_pmp_entries stride global_pmp_end_index
          t'.u_mode_pmp_end_index true t'.u_mode_pmpaddr_regs
          t'.u_mode_pmpcfg_regs slots with
      | .panicked => .aborted r
      | .invoked _ _ _ a c =>
        .done { t' with u_mode_pmpaddr_regs := a, u_mode_pmpcfg_regs := c } r

/-! ## Buffer validator: `arch_buffer_validate` -/

/-- The `IS_WITHIN(inner_start, inner_size, outer_start, outer_size)`
macro.  All operands are unsigned; the two guard conjuncts ensure the
subtractions in the third cannot wrap, so truncated `Nat` subtraction
coincides with the C computation on every evaluated path. -/
def IS_WITHIN (inner_start inner_size outer_start outer_size : Nat) : Prop :=
  inner_start ≥ outer_start ∧ inner_size ≤ outer_size ∧
    inner_start - outer_start ≤ outer_size - inner_size

instance (a b c d : Nat) : Decidable (IS_WITHIN a b c d) :=
  inferInstanceAs (Decidable (_ ∧ _ ∧ _))

/-- The partition loop of `arch_buffer_validate`: same bounding scheme as
`resync_loop` (decrement `remaining` per non-empty partition), `break` at
the first partition containing the buffer.  Also returns the list of
non-empty partitions visited. -/
def validate_loop (write : Bool) (start size : Nat) :
    List MemPartition → Nat → Option (Int × List MemPartition)
  | _, 0 => some (-1, [])
  | [], _ + 1 => none
  | p :: ps, remaining + 1 =>
    if p.size = 0 then
      validate_loop write start size ps (remaining + 1)
    else if IS_WITHIN start size p.start p.size then
      some (if p.pmp_attr &&& (if write then PMP_W else PMP_R) ≠ 0
        then 0 else -1, [p])
    else
      (validate_loop write start size ps remaining).map
        (fun x => (x.1, p :: x.2))

/-- `arch_buffer_validate`: own stack, then (for reads) the global
read-only image, then the domain partition search.  `0` = allowed,
`-1` = denied; `none` = the partition loop walked out of bounds. -/
def arch_buffer_validate (stack_start stack_size ro_start ro_size : Nat)
    (d : MemDomain) (addr size : Nat) (write : Bool) : Option Int :=
  if IS_WITHIN addr size stack_start stack_size then
    some 0
  else if write = false ∧ IS_WITHIN addr size ro_start ro_size then
    some 0
  else
    (validate_loop write addr size d.partitions d.num_partitions).map
      Prod.fst

/-- The spec's access-control predicate, stated in the spec's words
(claim C4): the buffer is allowed iff it lies entirely inside the thread's
own stack, or (for a read) inside the global read-only image, or entirely
inside exactly one non-empty partition whose attribute grants the
requested permission bit.  To be compared against
`arch_buffer_validate`. -/
def specAllowed (stack_start stack_size ro_start ro_size : Nat)
    (d : MemDomain) (addr size : Nat) (write : Bool) : Prop :=
  IS_WITHIN addr size stack_start stack_size ∨
  (write = false ∧ IS_WITHIN addr size ro_start ro_size) ∨
  (∃! i : Nat, ∃ h : i < d.partitions.length,
    (d.partitions.get ⟨i, h⟩).size ≠ 0 ∧
    IS_WITHIN addr size (d.partitions.get ⟨i, h⟩).start
      (d.partitions.get ⟨i, h⟩).size ∧
    (d.partitions.get ⟨i, h⟩).pmp_attr &&&
      (if write then PMP_W else PMP_R) ≠ 0)

/-! ## Helper lemmas -/

/-- `set_pmp_entry` never moves the cursor backwards. -/
theorem upd_same (f : Nat → Nat) (i v : Nat) : upd f i v i = v := by
  simp [upd]

theorem upd_other (f : Nat → Nat) {i j : Nat} (v : Nat) (h : j ≠ i) :
    upd f i v j = f j := by
  simp [upd, h]

theorem set_pmp_entry_index_ge (w index perm start size : Nat)
    (a c : Nat → Nat) (lim : Nat) :
    index ≤ (set_pmp_entry w index perm start size a c lim).index := by
  unfold set_pmp_entry
  repeat' split
  all_goals simp

/-- One step of the trailing-clear loop decreases its measure by one. -/
theorem clear_tail_measure_step {stride idx : Nat} (hs : 0 < stride)
    (hm : idx % stride ≠ 0) :
    (stride - (idx + 1) % stride) % stride =
      (stride - idx % stride) % stride - 1 := by
  have h1 : idx % stride < stride := Nat.mod_lt _ hs
  have key : (idx + 1) % stride = (idx % stride + 1) % stride :=
    (Nat.mod_add_mod idx stride 1).symm
  have e3 : (stride - idx % stride) % stride = stride - idx % stride :=
    Nat.mod_eq_of_lt (by omega)
  rcases Nat.lt_or_ge (idx % stride + 1) stride with h2 | h2
  · have e1 : (idx + 1) % stride = idx % stride + 1 :=
      key.trans (Nat.mod_eq_of_lt h2)
    rw [e1, e3, Nat.mod_eq_of_lt (by omega)]
    omega
  · have h3 : idx % stride + 1 = stride := by omega
    have e1 : (idx + 1) % stride = 0 := by
      rw [key, h3, Nat.mod_self]
    rw [e1, e3, Nat.sub_zero, Nat.mod_self]
    omega

/-- Pointwise description of the trailing-clear loop: it zeroes exactly the
bytes from `idx` (inclusive) to the next `stride` boundary (exclusive). -/
theorem clear_tail_eq {stride : Nat} (hs : 0 < stride) :
    ∀ n idx cfg, (stride - idx % stride) % stride = n →
    clear_tail stride cfg idx =
      fun i => if idx ≤ i ∧ i < idx + n then 0 else cfg i := by
  intro n
  induction n with
  | zero =>
    intro idx cfg hn
    have hidx : idx % stride = 0 := by
      have h1 : idx % stride < stride := Nat.mod_lt _ hs
      by_contra hne
      rw [Nat.mod_eq_of_lt (by omega)] at hn
      omega
    rw [clear_tail]
    rw [dif_pos (Or.inr hidx)]
    funext i
    rw [if_neg (by omega)]
  | succ n ih =>
    intro idx cfg hn
    have hidx : idx % stride ≠ 0 := by
      intro h0
      rw [h0, Nat.sub_zero, Nat.mod_self] at hn
      omega
    rw [clear_tail, dif_neg (by omega)]
    have hstep := clear_tail_measure_step hs hidx
    rw [hn] at hstep
    rw [ih (idx + 1) (upd cfg idx 0) (by omega)]
    funext i
    by_cases hi : i = idx
    · subst hi
      simp [upd]
    · simp only [upd, if_neg hi]
      by_cases hr : idx + 1 ≤ i ∧ i < idx + 1 + n
      · rw [if_pos hr, if_pos (by omega)]
      · rw [if_neg hr, if_neg (by omega)]

/-- The next multiple of `stride` at or above `idx`, in closed form. -/
theorem next_stride_boundary {stride : Nat} (idx : Nat) (hs : 0 < stride) :
    idx + (stride - idx % stride) % stride =
      (idx + stride - 1) / stride * stride := by
  obtain ⟨q, s, hqs, hslt⟩ : ∃ q s, stride * q + s = idx ∧ s < stride :=
    ⟨idx / stride, idx % stride, Nat.div_add_mod idx stride,
      Nat.mod_lt _ hs⟩
  have hmod : idx % stride = s := by
    rw [← hqs, Nat.mul_add_mod, Nat.mod_eq_of_lt hslt]
  rcases Nat.eq_zero_or_pos s with hz | hpos
  · subst hz
    rw [hmod, Nat.sub_zero, Nat.mod_self, Nat.add_zero]
    have h1 : idx + stride - 1 = stride * q + (stride - 1) := by omega
    rw [h1, Nat.mul_add_div hs, Nat.div_eq_of_lt (by omega), Nat.add_zero]
    rw [Nat.mul_comm stride q] at hqs
    omega
  · rw [hmod, Nat.mod_eq_of_lt (by omega)]
    have h1 : idx + stride - 1 = stride * (q + 1) + (s - 1) := by
      rw [Nat.mul_add, Nat.mul_one]
      omega
    rw [h1, Nat.mul_add_div hs, Nat.div_eq_of_lt (by omega), Nat.add_zero]
    rw [Nat.add_mul, Nat.one_mul]
    rw [Nat.mul_comm stride q] at hqs
    omega

/-- The wrapped `size - 1` for a machine-representable positive size. -/
theorem wsub_one_eq {w size : Nat} (hpos : 0 < size) (hlt : size < 2 ^ w) :
    wsub w size 1 = size - 1 := by
  unfold wsub
  have h2 : 2 ≤ 2 ^ w := by omega
  have h1 : (1 : Nat) % 2 ^ w = 1 := Nat.mod_eq_of_lt (by omega)
  rw [h1]
  have h3 : size + (2 ^ w - 1) = (size - 1) + 2 ^ w := by omega
  rw [h3, Nat.add_mod_right, Nat.mod_eq_of_lt (by omega)]

/-- The wrapped `0 - 1`: all ones (`ULONG_MAX`). -/
theorem wsub_zero_one (w : Nat) : wsub w 0 1 = 2 ^ w - 1 := by
  unfold wsub
  rcases Nat.eq_zero_or_pos w with hw | hw
  · subst hw
    rfl
  · have h2 : 2 ≤ 2 ^ w := by
      have := Nat.one_lt_two_pow_iff.mpr (by omega : w ≠ 0)
      omega
    have h1 : (1 : Nat) % 2 ^ w = 1 := Nat.mod_eq_of_lt (by omega)
    rw [h1, Nat.zero_add, Nat.mod_eq_of_lt (by omega)]

/-- Extract the A-field of `perm ||| mode` when `perm` has no A-bits. -/
theorem a_field_of_or {perm mode : Nat} (hp : perm &&& PMP_A = 0) :
    (perm ||| mode) &&& PMP_A = mode &&& PMP_A := by
  rw [Nat.and_distrib_right, hp, Nat.zero_or]

/-- A permission drawn from the `R|W|X|L` mask has no A-field bits. -/
theorem perm_no_a_field {perm : Nat} (hp : perm &&& PMP_PERMS = perm) :
    perm &&& PMP_A = 0 := by
  have h0 : PMP_PERMS &&& PMP_A = 0 := by decide
  rw [← hp, Nat.and_assoc, h0, Nat.and_zero]

/-- Rendered permission bits of `perm ||| mode` for an A-field-only mode. -/
theorem decodePerm_or {perm mode : Nat} (hp : perm &&& PMP_PERMS = perm)
    (hm : mode &&& PMP_PERMS = 0) :
    decodePerm (perm ||| mode) = perm := by
  unfold decodePerm
  rw [Nat.and_distrib_right, hp, hm, Nat.or_zero]

/-! ## Bit-twiddling toolkit

Helper lemmas about `Nat` bitwise operations, used to reason about the
NAPOT address encoding.  All follow the testBit-extensionality style.
-/

/-- Decompose the bits of `2 ^ n * q + b` with `b < 2 ^ n`:
the low `n` bits come from `b`, the rest from `q`. -/
theorem testBit_split {n b : Nat} (q : Nat) (hb : b < 2 ^ n) (i : Nat) :
    Nat.testBit (2 ^ n * q + b) i =
      if i < n then Nat.testBit b i else Nat.testBit q (i - n) :=
  Nat.testBit_mul_pow_two_add q hb i

/-- Bitwise AND of two numbers split at bit `n` operates componentwise. -/
theorem land_split {n a b : Nat} (q r : Nat) (ha : a < 2 ^ n) (hb : b < 2 ^ n) :
    (2 ^ n * q + a) &&& (2 ^ n * r + b) = 2 ^ n * (q &&& r) + (a &&& b) := by
  apply Nat.eq_of_testBit_eq
  intro i
  have hab : a &&& b < 2 ^ n := Nat.and_lt_two_pow a hb
  rw [Nat.testBit_and, testBit_split q ha i, testBit_split r hb i,
    testBit_split (q &&& r) hab i]
  by_cases h : i < n <;> simp [h, Nat.testBit_and]

/-- Bitwise OR of two numbers split at bit `n` operates componentwise. -/
theorem lor_split {n a b : Nat} (q r : Nat) (ha : a < 2 ^ n) (hb : b < 2 ^ n) :
    (2 ^ n * q + a) ||| (2 ^ n * r + b) = 2 ^ n * (q ||| r) + (a ||| b) := by
  apply Nat.eq_of_testBit_eq
  intro i
  have hab : a ||| b < 2 ^ n := Nat.or_lt_two_pow ha hb
  rw [Nat.testBit_or, testBit_split q ha i, testBit_split r hb i,
    testBit_split (q ||| r) hab i]
  by_cases h : i < n <;> simp [h, Nat.testBit_or]

/-- A multiple of `2 ^ n` shares no bits with a number below `2 ^ n`. -/
theorem land_eq_zero_of_disjoint {n a b : Nat} (ha : a % 2 ^ n = 0)
    (hb : b < 2 ^ n) : a &&& b = 0 := by
  obtain ⟨q, rfl⟩ : ∃ q, a = 2 ^ n * q :=
    ⟨a / 2 ^ n, (Nat.div_mul_cancel (Nat.dvd_of_mod_eq_zero ha)).symm.trans
      (Nat.mul_comm _ _)⟩
  apply Nat.eq_of_testBit_eq
  intro i
  have := testBit_split (n := n) (b := 0) q (Nat.two_pow_pos n) i
  rw [Nat.testBit_and, Nat.add_zero] at *
  by_cases h : i < n
  · rw [this]
    simp [h]
  · rw [Nat.testBit_lt_two_pow (Nat.lt_of_lt_of_le hb
      (Nat.pow_le_pow_right (by omega) (by omega)))]
    simp
/-- OR of a multiple of `2 ^ n` with a number below `2 ^ n` is addition. -/
theorem lor_eq_add_of_disjoint {n a b : Nat} (ha : a % 2 ^ n = 0)
    (hb : b < 2 ^ n) : a ||| b = a + b := by
  obtain ⟨q, rfl⟩ : ∃ q, a = 2 ^ n * q :=
    ⟨a / 2 ^ n, (Nat.div_mul_cancel (Nat.dvd_of_mod_eq_zero ha)).symm.trans
      (Nat.mul_comm _ _)⟩
  apply Nat.eq_of_testBit_eq
  intro i
  have h0 := testBit_split (n := n) (b := 0) q (Nat.two_pow_pos n) i
  have h1 := testBit_split (n := n) (b := b) q hb i
  rw [Nat.add_zero] at h0
  rw [Nat.testBit_or, h0, h1]
  by_cases h : i < n
  · simp [h]
  · rw [Nat.testBit_lt_two_pow (Nat.lt_of_lt_of_le hb
      (Nat.pow_le_pow_right (by omega) (by omega)))]
    simp

/-- The C power-of-two test: a positive `n` with `n &&& (n-1) = 0` is `2 ^ k`. -/
theorem pow_of_land_pred_eq_zero {n : Nat} (hn : 0 < n)
    (h : n &&& (n - 1) = 0) : ∃ k, n = 2 ^ k := by
  refine ⟨n.log2, ?_⟩
  have hne : n ≠ 0 := by omega
  have hlow : 2 ^ n.log2 ≤ n := Nat.log2_self_le hne
  have hhigh : n < 2 ^ (n.log2 + 1) := Nat.lt_log2_self
  by_contra hne2
  have hgt : 2 ^ n.log2 < n := by omega
  have hh2 : n < 2 * 2 ^ n.log2 := by
    rw [Nat.pow_succ] at hhigh
    omega
  have hb1 : n.testBit n.log2 = true := by
    rw [Nat.testBit_to_div_mod]
    have : n / 2 ^ n.log2 = 1 := by
      apply Nat.div_eq_of_lt_le
      · simpa using hlow
      · omega
    simp [this]
  have hb2 : (n - 1).testBit n.log2 = true := by
    rw [Nat.testBit_to_div_mod]
    have : (n - 1) / 2 ^ n.log2 = 1 := by
      apply Nat.div_eq_of_lt_le
      · simp only [Nat.one_mul]
        omega
      · omega
    simp [this]
  have : (n &&& (n - 1)).testBit n.log2 = true := by
    rw [Nat.testBit_and, hb1, hb2]
    rfl
  rw [h] at this
  simp at this


/-- Encoding then decoding a 4-byte-aligned machine-word address is the
identity. -/
theorem pmp_addr_roundtrip {w s : Nat} (h4 : s % 4 = 0) (hlt : s < 2 ^ w) :
    PMP_ADDR s <<< 2 % 2 ^ w = s := by
  unfold PMP_ADDR
  rw [Nat.shiftRight_eq_div_pow, Nat.shiftLeft_eq]
  have : s / 2 ^ 2 * 2 ^ 2 = s :=
    Nat.div_mul_cancel (Nat.dvd_of_mod_eq_zero h4)
  rw [this, Nat.mod_eq_of_lt hlt]

/-- Decoded top-of-range bound: a slot holding `PMP_ADDR(v)` (with the
store of `v` truncated to the machine word) decodes to the inclusive end
`v - 1`, also when `v = 2 ^ w` wraps to `0` in the slot. -/
theorem tor_end_eq {w v : Nat} (h4 : v % 4 = 0) (hpos : 0 < v)
    (hle : v ≤ 2 ^ w) :
    wsub w (PMP_ADDR (v % 2 ^ w) <<< 2 % 2 ^ w) 1 = v - 1 := by
  rcases Nat.lt_or_ge v (2 ^ w) with hlt | hge
  · rw [Nat.mod_eq_of_lt hlt, pmp_addr_roundtrip h4 hlt,
      wsub_one_eq hpos hlt]
  · have hv : v = 2 ^ w := by omega
    subst hv
    rw [Nat.mod_self]
    have h0 : PMP_ADDR 0 <<< 2 % 2 ^ w = 0 := by
      have := Nat.two_pow_pos w
      simp [PMP_ADDR]
    rw [h0, wsub_zero_one]

/-- Decoding the NAPOT slot produced for a naturally aligned power-of-two
region `[start, start + 2 ^ k)` with `k ≥ 3` recovers exactly that
range. -/
theorem decode_napot_slot {w k start : Nat} (addr cfg : Nat → Nat)
    (index : Nat) (hk : 3 ≤ k) (hal : start % 2 ^ k = 0)
    (hfit : start + 2 ^ k ≤ 2 ^ w) (hklt : 2 ^ k < 2 ^ w)
    (haddr : addr index = PMP_ADDR_NAPOT w start (2 ^ k))
    (hcfg : cfg index &&& PMP_A = PMP_NAPOT) :
    decodeEntry w addr cfg index = (start, start + 2 ^ k - 1) := by
  have hk1 : (1 : Nat) ≤ 2 ^ (k - 1) := Nat.one_le_two_pow
  have hk3 : (1 : Nat) ≤ 2 ^ (k - 3) := Nat.one_le_two_pow
  have hpowk : 2 ^ k = 2 * 2 ^ (k - 1) := by
    conv_lhs => rw [show k = (k - 1) + 1 by omega]
    rw [Nat.pow_succ, Nat.mul_comm]
  have hpow13 : 2 ^ (k - 1) = 4 * 2 ^ (k - 3) := by
    conv_lhs => rw [show k - 1 = 2 + (k - 3) by omega]
    rw [Nat.pow_add]
  have hal1 : start % 2 ^ (k - 1) = 0 :=
    Nat.mod_eq_zero_of_dvd
      ((Nat.pow_dvd_pow 2 (by omega)).trans (Nat.dvd_of_mod_eq_zero hal))
  have hs4 : start % 4 = 0 := by
    have h4d : (4 : Nat) ∣ start :=
      (Dvd.intro _ hpow13.symm).trans (Nat.dvd_of_mod_eq_zero hal1)
    exact Nat.mod_eq_zero_of_dvd h4d
  have hNR : NAPOT_RANGE w (2 ^ k) = 2 ^ (k - 1) - 1 := by
    unfold NAPOT_RANGE
    rw [wsub_one_eq (Nat.two_pow_pos k) hklt, Nat.shiftRight_eq_div_pow]
    have h1 : 2 ^ k - 1 = 2 * (2 ^ (k - 1) - 1) + 1 := by omega
    rw [h1, Nat.pow_one, Nat.mul_add_div (by omega)]
    simp
  have haddrval : addr index = start / 4 + 2 ^ (k - 3) - 1 := by
    rw [haddr]
    unfold PMP_ADDR_NAPOT PMP_ADDR
    rw [hNR, lor_eq_add_of_disjoint (n := k - 1) hal1 (by omega),
      Nat.shiftRight_eq_div_pow]
    have h1 : start + (2 ^ (k - 1) - 1) =
        2 ^ 2 * (start / 4 + 2 ^ (k - 3) - 1) + 3 := by
      have h22 : (2 : Nat) ^ 2 = 4 := by norm_num
      omega
    rw [h1, Nat.mul_add_div (by omega)]
    simp
  have htmp : addr index <<< 2 % 2 ^ w ||| 3 = start + 2 ^ (k - 1) - 1 := by
    rw [haddrval, Nat.shiftLeft_eq]
    have hexp : (start / 4 + 2 ^ (k - 3) - 1) * 2 ^ 2 =
        start + 2 ^ (k - 1) - 4 := by
      have h22 : (2 : Nat) ^ 2 = 4 := by norm_num
      omega
    rw [hexp, Nat.mod_eq_of_lt (by omega)]
    have hm4 : (start + 2 ^ (k - 1) - 4) % 2 ^ 2 = 0 := by
      have h22 : (2 : Nat) ^ 2 = 4 := by norm_num
      omega
    rw [lor_eq_add_of_disjoint (n := 2) hm4 (by norm_num)]
    omega
  have htmp1 : wadd w (start + 2 ^ (k - 1) - 1) 1 = start + 2 ^ (k - 1) := by
    unfold wadd
    have h1 : start + 2 ^ (k - 1) - 1 + 1 = start + 2 ^ (k - 1) := by omega
    rw [h1, Nat.mod_eq_of_lt (by omega)]
  obtain ⟨q, hq⟩ : ∃ q, start = 2 ^ k * q :=
    ⟨start / 2 ^ k, by
      rw [Nat.mul_comm]
      exact (Nat.div_mul_cancel (Nat.dvd_of_mod_eq_zero hal)).symm⟩
  have e1 : start + 2 ^ (k - 1) - 1 = 2 ^ k * q + (2 ^ (k - 1) - 1) := by
    omega
  have e2 : start + 2 ^ (k - 1) = 2 ^ k * q + 2 ^ (k - 1) := by omega
  have hand : (start + 2 ^ (k - 1) - 1) &&& (start + 2 ^ (k - 1)) =
      start := by
    rw [e1, e2, land_split q q (by omega) (by omega), Nat.and_self]
    have hz : (2 ^ (k - 1) - 1) &&& 2 ^ (k - 1) = 0 := by
      rw [Nat.and_comm]
      exact land_eq_zero_of_disjoint (Nat.mod_self _) (by omega)
    rw [hz, Nat.add_zero, ← hq]
  have hor : (start + 2 ^ (k - 1) - 1) ||| (start + 2 ^ (k - 1)) =
      start + 2 ^ k - 1 := by
    rw [e1, e2, lor_split q q (by omega) (by omega), Nat.or_self]
    have hsum : (2 ^ (k - 1) - 1) ||| 2 ^ (k - 1) = 2 ^ k - 1 := by
      rw [Nat.or_comm, lor_eq_add_of_disjoint (Nat.mod_self _) (by omega)]
      omega
    rw [hsum]
    omega
  unfold decodeEntry
  rw [hcfg]
  rw [if_neg (by decide), if_neg (by decide), if_pos rfl]
  rw [htmp]
  dsimp only
  rw [htmp1, hand, hor]

/-- Decoding the NA4 slot produced for an aligned 4-byte region recovers
exactly that range. -/
theorem decode_na4_slot {w start : Nat} (addr cfg : Nat → Nat)
    (index : Nat) (hw : 3 ≤ w) (hs4 : start % 4 = 0)
    (hfit : start + 4 ≤ 2 ^ w)
    (haddr : addr index = PMP_ADDR_NAPOT w start 4)
    (hcfg : cfg index &&& PMP_A = PMP_NA4) :
    decodeEntry w addr cfg index = (start, start + 3) := by
  have h8 : (8 : Nat) ≤ 2 ^ w := by
    calc (8 : Nat) = 2 ^ 3 := by norm_num
    _ ≤ 2 ^ w := Nat.pow_le_pow_right (by omega) hw
  have hNR : NAPOT_RANGE w 4 = 1 := by
    unfold NAPOT_RANGE
    rw [wsub_one_eq (by omega) (by omega)]
    decide
  have haddrval : addr index = start / 4 := by
    rw [haddr]
    unfold PMP_ADDR_NAPOT PMP_ADDR
    rw [hNR, lor_eq_add_of_disjoint (n := 2) (by omega) (by norm_num),
      Nat.shiftRight_eq_div_pow]
    have h1 : start + 1 = 2 ^ 2 * (start / 4) + 1 := by
      have h22 : (2 : Nat) ^ 2 = 4 := by norm_num
      omega
    rw [h1, Nat.mul_add_div (by omega)]
    simp
  have hback : addr index <<< 2 % 2 ^ w = start := by
    rw [haddrval, Nat.shiftLeft_eq]
    have h1 : start / 4 * 2 ^ 2 = start := by
      have h22 : (2 : Nat) ^ 2 = 4 := by norm_num
      omega
    rw [h1, Nat.mod_eq_of_lt (by omega)]
  have hend : wadd w start 3 = start + 3 := by
    unfold wadd
    rw [Nat.mod_eq_of_lt (by omega)]
  unfold decodeEntry
  rw [hcfg]
  rw [if_neg (by decide), if_pos rfl]
  rw [hback, hend]

/-- Decoding a TOR slot holding the encoded bound `v` (stored truncated to
the machine word) yields the range from the chained base `s` — taken from
the preceding slot, or `0` at slot 0 — to `v - 1`. -/
theorem decode_tor_slot {w : Nat} (addr cfg : Nat → Nat) (index s v : Nat)
    (hbase : (index = 0 ∧ s = 0) ∨
      (index ≠ 0 ∧ addr (index - 1) = PMP_ADDR s))
    (hs4 : s % 4 = 0) (hslt : s < 2 ^ w)
    (hv4 : v % 4 = 0) (hvpos : 0 < v) (hvle : v ≤ 2 ^ w)
    (haddr : addr index = PMP_ADDR (v % 2 ^ w))
    (hcfg : cfg index &&& PMP_A = PMP_TOR) :
    decodeEntry w addr cfg index = (s, v - 1) := by
  unfold decodeEntry
  rw [hcfg, if_pos rfl, haddr, tor_end_eq hv4 hvpos hvle]
  rcases hbase with ⟨hi0, hs0⟩ | ⟨hine, hprev⟩
  · rw [if_pos hi0, hs0]
  · rw [if_neg hine, hprev, pmp_addr_roundtrip hs4 hslt]

/-- Decoding the NAPOT slot produced for the whole-address-space sentinel
`start = 0, size = 0` covers the entire address space. -/
theorem decode_napot_sentinel {w : Nat} (addr cfg : Nat → Nat)
    (index : Nat) (hw : 3 ≤ w)
    (haddr : addr index = PMP_ADDR_NAPOT w 0 0)
    (hcfg : cfg index &&& PMP_A = PMP_NAPOT) :
    decodeEntry w addr cfg index = (0, 2 ^ w - 1) := by
  have hw1 : (1 : Nat) ≤ 2 ^ (w - 1) := Nat.one_le_two_pow
  have hw3 : (1 : Nat) ≤ 2 ^ (w - 3) := Nat.one_le_two_pow
  have hpoww : 2 ^ w = 2 * 2 ^ (w - 1) := by
    conv_lhs => rw [show w = (w - 1) + 1 by omega]
    rw [Nat.pow_succ, Nat.mul_comm]
  have hpow13 : 2 ^ (w - 1) = 4 * 2 ^ (w - 3) := by
    conv_lhs => rw [show w - 1 = 2 + (w - 3) by omega]
    rw [Nat.pow_add]
  have hNR : NAPOT_RANGE w 0 = 2 ^ (w - 1) - 1 := by
    unfold NAPOT_RANGE
    rw [wsub_zero_one, Nat.shiftRight_eq_div_pow]
    have h1 : 2 ^ w - 1 = 2 * (2 ^ (w - 1) - 1) + 1 := by omega
    rw [h1, Nat.pow_one, Nat.mul_add_div (by omega)]
    simp
  have haddrval : addr index = 2 ^ (w - 3) - 1 := by
    rw [haddr]
    unfold PMP_ADDR_NAPOT PMP_ADDR
    rw [hNR, Nat.zero_or, Nat.shiftRight_eq_div_pow]
    have h1 : 2 ^ (w - 1) - 1 = 2 ^ 2 * (2 ^ (w - 3) - 1) + 3 := by
      have h22 : (2 : Nat) ^ 2 = 4 := by norm_num
      omega
    rw [h1, Nat.mul_add_div (by omega)]
    simp
  have htmp : addr index <<< 2 % 2 ^ w ||| 3 = 2 ^ (w - 1) - 1 := by
    rw [haddrval, Nat.shiftLeft_eq]
    have hexp : (2 ^ (w - 3) - 1) * 2 ^ 2 = 2 ^ (w - 1) - 4 := by
      have h22 : (2 : Nat) ^ 2 = 4 := by norm_num
      omega
    rw [hexp, Nat.mod_eq_of_lt (by omega)]
    have hm4 : (2 ^ (w - 1) - 4) % 2 ^ 2 = 0 := by
      have h22 : (2 : Nat) ^ 2 = 4 := by norm_num
      omega
    rw [lor_eq_add_of_disjoint (n := 2) hm4 (by norm_num)]
    omega
  have htmp1 : wadd w (2 ^ (w - 1) - 1) 1 = 2 ^ (w - 1) := by
    unfold wadd
    have h1 : 2 ^ (w - 1) - 1 + 1 = 2 ^ (w - 1) := by omega
    rw [h1, Nat.mod_eq_of_lt (by omega)]
  have hand : (2 ^ (w - 1) - 1) &&& 2 ^ (w - 1) = 0 := by
    rw [Nat.and_comm]
    exact land_eq_zero_of_disjoint (Nat.mod_self _) (by omega)
  have hor : (2 ^ (w - 1) - 1) ||| 2 ^ (w - 1) = 2 ^ w - 1 := by
    rw [Nat.or_comm, lor_eq_add_of_disjoint (Nat.mod_self _) (by omega)]
    omega
  unfold decodeEntry
  rw [hcfg]
  rw [if_neg (by decide), if_neg (by decide), if_pos rfl]
  rw [htmp]
  dsimp only
  rw [htmp1, hand, hor]

/-- A successful `resync_pmp_domain` records the domain's current
generation as the thread's last-synced generation. -/
theorem resync_pmp_domain_nr {w slots : Nat} {t t' : Thread}
    {d : MemDomain} (h : resync_pmp_domain w slots t d = some t') :
    t'.u_mode_pmp_update_nr = d.pmp_update_nr := by
  unfold resync_pmp_domain at h
  cases hres : resync_loop w slots d.partitions d.num_partitions
      t.u_mode_pmp_domain_offset t.u_mode_pmpaddr_regs
      t.u_mode_pmpcfg_regs with
  | none =>
    rw [hres] at h
    simp at h
  | some x =>
    rw [hres] at h
    simp only [Option.map_some'] at h
    rw [← Option.some_inj.mp h]

/-- `z_riscv_pmp_usermode_enable` with matching generation counters never
invokes `resync_pmp_domain`. -/
theorem enable_no_mismatch (w slots stride ge : Nat) (t : Thread)
    (d : MemDomain)
    (hnr : t.u_mode_pmp_update_nr = d.pmp_update_nr) :
    (z_riscv_pmp_usermode_enable w slots stride ge t d).resynced? =
      false := by
  unfold z_riscv_pmp_usermode_enable
  by_cases h0 : t.u_mode_pmp_end_index = 0
  · rw [if_pos h0]
    rfl
  · rw [if_neg h0, if_neg (by simp [hnr])]
    dsimp only
    split <;> rfl

/-- `z_riscv_pmp_usermode_enable` on a prepared thread with differing
generation counters always invokes `resync_pmp_domain`. -/
theorem enable_mismatch (w slots stride ge : Nat) (t : Thread)
    (d : MemDomain) (h0 : t.u_mode_pmp_end_index ≠ 0)
    (hnr : t.u_mode_pmp_update_nr ≠ d.pmp_update_nr) :
    (z_riscv_pmp_usermode_enable w slots stride ge t d).resynced? =
      true := by
  unfold z_riscv_pmp_usermode_enable
  rw [if_neg h0, if_pos hnr]
  cases hres : resync_pmp_domain w slots t d with
  | none => rfl
  | some t2 =>
    dsimp only [Option.map_some']
    split <;> rfl

/-- A normal return of `z_riscv_pmp_usermode_enable` leaves the thread's
last-synced generation equal to the domain's generation. -/
theorem enable_done_nr {w slots stride ge : Nat} {t t' : Thread}
    {d : MemDomain} {r : Bool}
    (h : z_riscv_pmp_usermode_enable w slots stride ge t d = .done t' r) :
    t'.u_mode_pmp_update_nr = d.pmp_update_nr := by
  unfold z_riscv_pmp_usermode_enable at h
  by_cases h0 : t.u_mode_pmp_end_index = 0
  · rw [if_pos h0] at h
    simp at h
  · rw [if_neg h0] at h
    by_cases hnr : t.u_mode_pmp_update_nr ≠ d.pmp_update_nr
    · rw [if_pos hnr] at h
      cases hres : resync_pmp_domain w slots t d with
      | none =>
        rw [hres] at h
        simp at h
      | some t2 =>
        rw [hres] at h
        dsimp only [Option.map_some'] at h
        have ht2 := resync_pmp_domain_nr hres
        split at h
        · simp at h
        · rename_i heq
          cases h
          exact ht2
    · rw [if_neg hnr] at h
      push_neg at hnr
      dsimp only at h
      split at h
      · simp at h
      · rename_i heq
        cases h
        exact hnr

/-- The resync partition walk stays in bounds (returns `some`) exactly
when the array holds at least `remaining` non-empty partitions. -/
theorem resync_loop_isSome_iff (w slots : Nat) :
    ∀ (l : List MemPartition) (r index : Nat) (a c : Nat → Nat),
      (resync_loop w slots l r index a c).isSome = true ↔
        r ≤ (l.filter (fun p => p.size != 0)).length := by
  intro l
  induction l with
  | nil =>
    intro r index a c
    cases r with
    | zero => simp [resync_loop]
    | succ r => simp [resync_loop]
  | cons p ps ih =>
    intro r index a c
    cases r with
    | zero => simp [resync_loop]
    | succ r =>
      by_cases hz : p.size = 0
      · rw [resync_loop, if_pos hz]
        rw [ih]
        simp [List.filter_cons, hz]
      · by_cases hsmall : p.size < 4
        · rw [resync_loop, if_neg hz, if_pos hsmall]
          rw [Option.isSome_map']
          rw [ih]
          simp [List.filter_cons, hz]
        · rw [resync_loop, if_neg hz, if_neg hsmall]
          rw [Option.isSome_map']
          rw [ih]
          simp [List.filter_cons, hz]

/-- The partitions visited by a completed resync walk are exactly the
first `remaining` non-empty cells of the array, in array order. -/
theorem resync_loop_visited (w slots : Nat) :
    ∀ (l : List MemPartition) (r index : Nat) (a c : Nat → Nat) x,
      resync_loop w slots l r index a c = some x →
        x.2.2.2 = (l.filter (fun p => p.size != 0)).take r := by
  intro l
  induction l with
  | nil =>
    intro r index a c x h
    cases r with
    | zero =>
      rw [resync_loop] at h
      cases h
      simp
    | succ r => simp [resync_loop] at h
  | cons p ps ih =>
    intro r index a c x h
    cases r with
    | zero =>
      rw [resync_loop] at h
      cases h
      simp
    | succ r =>
      by_cases hz : p.size = 0
      · rw [resync_loop, if_pos hz] at h
        rw [ih _ _ _ _ _ h]
        simp [List.filter_cons, hz]
      · by_cases hsmall : p.size < 4
        · rw [resync_loop, if_neg hz, if_pos hsmall] at h
          cases hrec : resync_loop w slots ps r index a c with
          | none =>
            rw [hrec] at h
            simp at h
          | some y =>
            rw [hrec] at h
            simp only [Option.map_some'] at h
            cases h
            dsimp only
            rw [ih _ _ _ _ _ hrec]
            simp [List.filter_cons, hz]
        · rw [resync_loop, if_neg hz, if_neg hsmall] at h
          dsimp only at h
          cases hrec : resync_loop w slots ps r
              (set_pmp_entry w index p.pmp_attr p.start p.size a c
                slots).index
              (set_pmp_entry w index p.pmp_attr p.start p.size a c
                slots).pmp_addr
              (set_pmp_entry w index p.pmp_attr p.start p.size a c
                slots).pmp_cfg with
          | none =>
            rw [hrec] at h
            simp at h
          | some y =>
            rw [hrec] at h
            simp only [Option.map_some'] at h
            cases h
            dsimp only
            rw [ih _ _ _ _ _ hrec]
            simp [List.filter_cons, hz]

/-- The validator's partition walk is guaranteed in-bounds under the same
precondition (but, unlike resync's, can also finish early on a match). -/
theorem validate_loop_some_of_count (write : Bool) (start size : Nat) :
    ∀ (l : List MemPartition) (r : Nat),
      r ≤ (l.filter (fun p => p.size != 0)).length →
      (validate_loop write start size l r).isSome = true := by
  intro l
  induction l with
  | nil =>
    intro r hr
    simp at hr
    subst hr
    simp [validate_loop]
  | cons p ps ih =>
    intro r hr
    cases r with
    | zero => simp [validate_loop]
    | succ r =>
      by_cases hz : p.size = 0
      · rw [validate_loop, if_pos hz]
        apply ih
        simpa [List.filter_cons, hz] using hr
      · by_cases hwithin : IS_WITHIN start size p.start p.size
        · rw [validate_loop, if_neg hz, if_pos hwithin]
          rfl
        · rw [validate_loop, if_neg hz, if_neg hwithin,
            Option.isSome_map']
          apply ih
          have : (List.filter (fun p => p.size != 0) (p :: ps)).length =
              (List.filter (fun p => p.size != 0) ps).length + 1 := by
            simp [List.filter_cons, hz]
          omega

/-- Characterization of the validator's partition loop: with
`remaining` equal to the number of non-empty partitions, pairwise-disjoint
non-empty partitions and a nonzero buffer size, the loop answers `0` iff
some non-empty partition contains the buffer and grants the requested
permission bit, and `-1` otherwise. -/
theorem validate_loop_spec (write : Bool) (addr size : Nat)
    (hsz : 0 < size) :
    ∀ (l : List MemPartition) (r : Nat),
      (l.filter (fun p => p.size != 0)).length = r →
      l.Pairwise (fun p q => p.size ≠ 0 → q.size ≠ 0 →
        p.start + p.size ≤ q.start ∨ q.start + q.size ≤ p.start) →
      ∃ v, validate_loop write addr size l r =
        some ((if ∃ p ∈ l, p.size ≠ 0 ∧
            IS_WITHIN addr size p.start p.size ∧
            p.pmp_attr &&& (if write then PMP_W else PMP_R) ≠ 0
          then (0 : Int) else -1), v) := by
  intro l
  induction l with
  | nil =>
    intro r hc _
    simp only [List.filter_nil, List.length_nil] at hc
    subst hc
    refine ⟨[], ?_⟩
    rw [show validate_loop write addr size [] 0 = some (-1, []) from rfl,
      if_neg (by simp)]
  | cons p ps ih =>
    intro r hc hpw
    rw [List.pairwise_cons] at hpw
    obtain ⟨hrel, hpw'⟩ := hpw
    cases r with
    | zero =>
      refine ⟨[], ?_⟩
      rw [show validate_loop write addr size (p :: ps) 0 =
        some (-1, []) from rfl]
      rw [if_neg ?_]
      rintro ⟨q, hq, hQ⟩
      have hmem : q ∈ (p :: ps).filter (fun p => p.size != 0) :=
        List.mem_filter.mpr ⟨hq, by simpa using hQ.1⟩
      rw [List.eq_nil_of_length_eq_zero hc] at hmem
      simp at hmem
    | succ r' =>
      by_cases hz : p.size = 0
      · have hc' : (ps.filter (fun p => p.size != 0)).length = r' + 1 := by
          simpa [List.filter_cons, hz] using hc
        have hiff : (∃ q ∈ p :: ps, q.size ≠ 0 ∧
            IS_WITHIN addr size q.start q.size ∧
            q.pmp_attr &&& (if write then PMP_W else PMP_R) ≠ 0) ↔
            (∃ q ∈ ps, q.size ≠ 0 ∧
            IS_WITHIN addr size q.start q.size ∧
            q.pmp_attr &&& (if write then PMP_W else PMP_R) ≠ 0) := by
          constructor
          · rintro ⟨q, hq, hQ⟩
            rcases List.mem_cons.mp hq with rfl | hq'
            · exact absurd hz hQ.1
            · exact ⟨q, hq', hQ⟩
          · rintro ⟨q, hq, hQ⟩
            exact ⟨q, List.mem_cons_of_mem _ hq, hQ⟩
        obtain ⟨v, hv⟩ := ih (r' + 1) hc' hpw'
        refine ⟨v, ?_⟩
        rw [validate_loop, if_pos hz, hv]
        rw [if_congr hiff rfl rfl]
      · by_cases hwithin : IS_WITHIN addr size p.start p.size
        · refine ⟨[p], ?_⟩
          rw [validate_loop, if_neg hz, if_pos hwithin]
          by_cases hg : p.pmp_attr &&&
              (if write then PMP_W else PMP_R) ≠ 0
          · rw [if_pos hg, if_pos ⟨p, List.mem_cons_self p ps,
              hz, hwithin, hg⟩]
          · rw [if_neg hg, if_neg ?_]
            rintro ⟨q, hq, hq0, hqw, hqg⟩
            rcases List.mem_cons.mp hq with rfl | hq'
            · exact hg hqg
            · have hd := hrel q hq' hz hq0
              unfold IS_WITHIN at hwithin hqw
              omega
        · have hc' : (ps.filter (fun p => p.size != 0)).length = r' := by
            have : ((p :: ps).filter (fun p => p.size != 0)).length =
                (ps.filter (fun p => p.size != 0)).length + 1 := by
              simp [List.filter_cons, hz]
            omega
          have hiff : (∃ q ∈ p :: ps, q.size ≠ 0 ∧
              IS_WITHIN addr size q.start q.size ∧
              q.pmp_attr &&& (if write then PMP_W else PMP_R) ≠ 0) ↔
              (∃ q ∈ ps, q.size ≠ 0 ∧
              IS_WITHIN addr size q.start q.size ∧
              q.pmp_attr &&& (if write then PMP_W else PMP_R) ≠ 0) := by
            constructor
            · rintro ⟨q, hq, hQ⟩
              rcases List.mem_cons.mp hq with rfl | hq'
              · exact absurd hQ.2.1 hwithin
              · exact ⟨q, hq', hQ⟩
            · rintro ⟨q, hq, hQ⟩
              exact ⟨q, List.mem_cons_of_mem _ hq, hQ⟩
          obtain ⟨v, hv⟩ := ih r' hc' hpw'
          refine ⟨(p :: v), ?_⟩
          rw [validate_loop, if_neg hz, if_neg hwithin, hv]
          simp only [Option.map_some']
          rw [if_congr hiff rfl rfl]

/-- With a nonzero buffer size and pairwise-disjoint non-empty
partitions, at most one partition contains the buffer. -/
theorem contains_unique {addr size : Nat} {l : List MemPartition}
    (hsz : 0 < size)
    (hpw : l.Pairwise (fun p q => p.size ≠ 0 → q.size ≠ 0 →
      p.start + p.size ≤ q.start ∨ q.start + q.size ≤ p.start))
    {i j : Nat} (hi : i < l.length) (hj : j < l.length)
    (hPi : (l.get ⟨i, hi⟩).size ≠ 0 ∧
      IS_WITHIN addr size (l.get ⟨i, hi⟩).start (l.get ⟨i, hi⟩).size)
    (hPj : (l.get ⟨j, hj⟩).size ≠ 0 ∧
      IS_WITHIN addr size (l.get ⟨j, hj⟩).start (l.get ⟨j, hj⟩).size) :
    i = j := by
  have key : ∀ (a b : Nat) (ha : a < l.length) (hb : b < l.length),
      a < b →
      (l.get ⟨a, ha⟩).size ≠ 0 ∧
        IS_WITHIN addr size (l.get ⟨a, ha⟩).start (l.get ⟨a, ha⟩).size →
      (l.get ⟨b, hb⟩).size ≠ 0 ∧
        IS_WITHIN addr size (l.get ⟨b, hb⟩).start (l.get ⟨b, hb⟩).size →
      False := by
    intro a b ha hb hab hPa hPb
    have hrel := List.pairwise_iff_get.mp hpw ⟨a, ha⟩ ⟨b, hb⟩ hab
    have hd := hrel hPa.1 hPb.1
    have h1 := hPa.2
    have h2 := hPb.2
    unfold IS_WITHIN at h1 h2
    omega
  rcases Nat.lt_trichotomy i j with h | h | h
  · exact absurd (key i j hi hj h hPi hPj) not_false
  · exact h
  · exact absurd (key j i hj hi h hPj hPi) not_false

/-! ## Claim theorems -/

/-- Counterexample to claim C5 as stated: `z_riscv_pmp_usermode_prepare`
sets the thread's last-synced generation to `0`, which is exactly the
generation `arch_mem_domain_init` gives a fresh domain — not a value
"guaranteed to differ from any real generation".  For such a domain the
first `z_riscv_pmp_usermode_enable` after prepare observes no mismatch and
performs no resync. -/
theorem C5_counterexample :
    (z_riscv_pmp_usermode_prepare 32 8 4 1 (fun _ => 0)
      ⟨0x3000, 0x1000, (fun _ => 0), (fun _ => 0), 0, 0,
        5⟩).u_mode_pmp_update_nr =
      (arch_mem_domain_init ⟨[], 0, 7⟩).pmp_update_nr ∧
    (z_riscv_pmp_usermode_enable 32 8 4 1
      (z_riscv_pmp_usermode_prepare 32 8 4 1 (fun _ => 0)
        ⟨0x3000, 0x1000, (fun _ => 0), (fun _ => 0), 0, 0, 5⟩)
      (arch_mem_domain_init ⟨[], 0, 7⟩)).resynced? = false :=
  ⟨rfl, rfl⟩

/-- Claim C5, amended (first resync after prepare):
`z_riscv_pmp_usermode_prepare` sets the thread's last-synced generation
(`u_mode_pmp_update_nr`) to `0` — the same value `arch_mem_domain_init`
assigns a fresh domain — so the first `z_riscv_pmp_usermode_enable` after
prepare performs a resync iff the domain's current generation is nonzero
(guaranteed after any un-wrapped partition add/remove, but not for a
freshly initialized or wrapped-around domain). -/
theorem C5_usermode_prepare_first_resync (w slots stride ge : Nat)
    (gcfg : Nat → Nat) (t : Thread) (d : MemDomain) (hge : 0 < ge) :
    (z_riscv_pmp_usermode_prepare w slots stride ge gcfg
      t).u_mode_pmp_update_nr = 0 ∧
    (z_riscv_pmp_usermode_enable w slots stride ge
      (z_riscv_pmp_usermode_prepare w slots stride ge gcfg t)
      d).resynced? = decide (d.pmp_update_nr ≠ 0) := by
  refine ⟨rfl, ?_⟩
  have hend : (z_riscv_pmp_usermode_prepare w slots stride ge gcfg
      t).u_mode_pmp_end_index ≠ 0 := by
    have := set_pmp_entry_index_ge w ge (PMP_R ||| PMP_W) t.stack_start
      t.stack_size t.u_mode_pmpaddr_regs
      (fun i => if i < stride then gcfg i else t.u_mode_pmpcfg_regs i)
      slots
    unfold z_riscv_pmp_usermode_prepare
    dsimp only
    omega
  by_cases hd : d.pmp_update_nr = 0
  · rw [enable_no_mismatch w slots stride ge _ d (by rw [hd]; rfl)]
    simp [hd]
  · rw [enable_mismatch w slots stride ge _ d hend
      (fun hcontra => hd (hcontra.symm.trans rfl))]
    simp [hd]

/-- Witness for (amended) C5: with `global_pmp_end_index = 1` and a domain
at generation 3, the first enable after prepare resyncs. -/
theorem C5_usermode_prepare_first_resync_witness :
    (z_riscv_pmp_usermode_enable 32 8 4 1
      (z_riscv_pmp_usermode_prepare 32 8 4 1 (fun _ => 0)
        ⟨0x3000, 0x1000, (fun _ => 0), (fun _ => 0), 0, 0, 5⟩)
      ⟨[], 0, 3⟩).resynced? = decide ((3 : Nat) ≠ 0) :=
  (C5_usermode_prepare_first_resync 32 8 4 1 (fun _ => 0)
    ⟨0x3000, 0x1000, (fun _ => 0), (fun _ => 0), 0, 0, 5⟩ ⟨[], 0, 3⟩
    (by decide)).2

/-- Claim C6 (resync-iff-stale): for every thread whose u-mode store is
prepared (end index nonzero), `z_riscv_pmp_usermode_enable` invokes
`resync_pmp_domain` iff the thread's last-synced generation differs from
its domain's current generation; after any normal return the two are
equal; hence a second enable against the same (unmutated) domain performs
no further resync. -/
theorem C6_usermode_enable_resync_iff_stale (w slots stride ge : Nat)
    (t : Thread) (d : MemDomain)
    (h : t.u_mode_pmp_end_index ≠ 0) :
    ((z_riscv_pmp_usermode_enable w slots stride ge t d).resynced? =
      decide (t.u_mode_pmp_update_nr ≠ d.pmp_update_nr)) ∧
    (∀ t' r, z_riscv_pmp_usermode_enable w slots stride ge t d =
        .done t' r →
      t'.u_mode_pmp_update_nr = d.pmp_update_nr) ∧
    (∀ t' r, z_riscv_pmp_usermode_enable w slots stride ge t d =
        .done t' r →
      (z_riscv_pmp_usermode_enable w slots stride ge t' d).resynced? =
        false) := by
  refine ⟨?_, fun t' r hdone => enable_done_nr hdone,
    fun t' r hdone => enable_no_mismatch w slots stride ge t' d
      (enable_done_nr hdone)⟩
  by_cases hnr : t.u_mode_pmp_update_nr = d.pmp_update_nr
  · rw [enable_no_mismatch w slots stride ge t d hnr]
    simp [hnr]
  · rw [enable_mismatch w slots stride ge t d h hnr]
    simp [hnr]

/-- Witness for C6: a prepared thread one generation behind its domain
reports a resync on enable. -/
theorem C6_usermode_enable_resync_iff_stale_witness :
    (z_riscv_pmp_usermode_enable 32 8 4 1
      ⟨0x3000, 0x1000, (fun _ => 0), (fun _ => 0), 2, 2, 0⟩
      ⟨[⟨0x1000, 0x100, 3⟩], 1, 1⟩).resynced? =
      decide ((0 : Nat) ≠ 1) :=
  (C6_usermode_enable_resync_iff_stale 32 8 4 1
    ⟨0x3000, 0x1000, (fun _ => 0), (fun _ => 0), 2, 2, 0⟩
    ⟨[⟨0x1000, 0x100, 3⟩], 1, 1⟩ (by decide)).1

/-- Counterexample to claim C4 as stated, in three parts.
(a) With the claim's own example partitions and a zero-size buffer at the
adjacent boundary `0x2000`, a read is contained in (and granted by) *two*
partitions, so the claim's "entirely inside exactly one partition that
grants" is false and the claim predicts denial — but the code allows
(it breaks at the first containing partition).
(b) With two overlapping partitions where the first container lacks the
permission, exactly one partition contains-and-grants, so the claim
predicts allowed — but the code denies (it breaks at the first container
without looking further).
(c) With `num_partitions = 0` but a granting container present in the
array, the claim predicts allowed — but the loop exits immediately and
denies. -/
theorem C4_counterexample :
    (arch_buffer_validate 0x3000 0x1000 0x100000 0x1000
      ⟨[⟨0x1000, 0x1000, 3⟩, ⟨0x2000, 0x800, 1⟩], 2, 0⟩
      0x2000 0 false = some 0 ∧
     ¬specAllowed 0x3000 0x1000 0x100000 0x1000
      ⟨[⟨0x1000, 0x1000, 3⟩, ⟨0x2000, 0x800, 1⟩], 2, 0⟩
      0x2000 0 false) ∧
    (arch_buffer_validate 0x3000 0x1000 0x100000 0x1000
      ⟨[⟨0x1000, 0x100, 1⟩, ⟨0x1000, 0x100, 3⟩], 2, 0⟩
      0x1000 0x10 true = some (-1) ∧
     specAllowed 0x3000 0x1000 0x100000 0x1000
      ⟨[⟨0x1000, 0x100, 1⟩, ⟨0x1000, 0x100, 3⟩], 2, 0⟩
      0x1000 0x10 true) ∧
    (arch_buffer_validate 0x3000 0x1000 0x100000 0x1000
      ⟨[⟨0x1000, 0x100, 3⟩], 0, 0⟩ 0x1000 0x10 true = some (-1) ∧
     specAllowed 0x3000 0x1000 0x100000 0x1000
      ⟨[⟨0x1000, 0x100, 3⟩], 0, 0⟩ 0x1000 0x10 true) := by
  refine ⟨⟨by decide, ?_⟩, ⟨by decide, ?_⟩, ⟨by decide, ?_⟩⟩
  · rintro (h | h | ⟨i, ⟨hi, hQ⟩, huniq⟩)
    · exact absurd h (by decide)
    · exact absurd h.2 (by decide)
    · have h0 : (0 : Nat) = i :=
        huniq 0 ⟨by decide, by decide, by decide, by decide⟩
      have h1 : (1 : Nat) = i :=
        huniq 1 ⟨by decide, by decide, by decide, by decide⟩
      omega
  · refine Or.inr (Or.inr
      ⟨1, ⟨by decide, by decide, by decide, by decide⟩, ?_⟩)
    rintro j ⟨hj, hQj⟩
    have hj2 : j < 2 := hj
    interval_cases j
    · have hget : ((⟨[⟨0x1000, 0x100, 1⟩, ⟨0x1000, 0x100, 3⟩], 2, 0⟩ :
          MemDomain).partitions.get ⟨0, hj⟩) = ⟨0x1000, 0x100, 1⟩ := rfl
      rw [hget] at hQj
      exact absurd hQj.2.2 (by decide)
    · rfl
  · refine Or.inr (Or.inr
      ⟨0, ⟨by decide, by decide, by decide, by decide⟩, ?_⟩)
    rintro j ⟨hj, hQj⟩
    have hj1 : j < 1 := hj
    interval_cases j
    rfl

/-- Claim C4, amended (buffer validation): provided the domain is
well-formed — `num_partitions` equals the number of non-empty partition
cells and non-empty partitions are pairwise disjoint — and the buffer has
nonzero size, `arch_buffer_validate` returns allowed (`0`) iff the range
lies entirely inside the thread's own stack, or (for a read) inside the
global read-only image, or inside exactly one non-empty partition whose
attribute grants the requested permission bit; in every other case it
returns denied (`-1`). -/
theorem C4_arch_buffer_validate_spec (stackS stackZ roS roZ : Nat)
    (d : MemDomain) (addr size : Nat) (write : Bool)
    (hcount : (d.partitions.filter (fun p => p.size != 0)).length =
      d.num_partitions)
    (hdisj : d.partitions.Pairwise (fun p q => p.size ≠ 0 → q.size ≠ 0 →
      p.start + p.size ≤ q.start ∨ q.start + q.size ≤ p.start))
    (hsz : 0 < size) :
    (arch_buffer_validate stackS stackZ roS roZ d addr size write =
        some 0 ↔
      specAllowed stackS stackZ roS roZ d addr size write) ∧
    (arch_buffer_validate stackS stackZ roS roZ d addr size write =
        some (-1) ↔
      ¬specAllowed stackS stackZ roS roZ d addr size write) := by
  by_cases h1 : IS_WITHIN addr size stackS stackZ
  · have hval : arch_buffer_validate stackS stackZ roS roZ d addr size
        write = some 0 := by
      rw [arch_buffer_validate, if_pos h1]
    refine ⟨iff_of_true hval (Or.inl h1),
      iff_of_false ?_ (fun hn => hn (Or.inl h1))⟩
    intro h'
    rw [hval] at h'
    exact absurd (Option.some.inj h') (by decide)
  · by_cases h2 : write = false ∧ IS_WITHIN addr size roS roZ
    · have hval : arch_buffer_validate stackS stackZ roS roZ d addr size
          write = some 0 := by
        rw [arch_buffer_validate, if_neg h1, if_pos h2]
      refine ⟨iff_of_true hval (Or.inr (Or.inl h2)),
        iff_of_false ?_ (fun hn => hn (Or.inr (Or.inl h2)))⟩
      intro h'
      rw [hval] at h'
      exact absurd (Option.some.inj h') (by decide)
    · obtain ⟨v, hv⟩ := validate_loop_spec write addr size hsz
        d.partitions d.num_partitions hcount hdisj
      have hval : arch_buffer_validate stackS stackZ roS roZ d addr size
          write = some (if ∃ p ∈ d.partitions, p.size ≠ 0 ∧
            IS_WITHIN addr size p.start p.size ∧
            p.pmp_attr &&& (if write then PMP_W else PMP_R) ≠ 0
          then (0 : Int) else -1) := by
        rw [arch_buffer_validate, if_neg h1, if_neg h2, hv]
        rfl
      have hspec : specAllowed stackS stackZ roS roZ d addr size write ↔
          (∃ p ∈ d.partitions, p.size ≠ 0 ∧
            IS_WITHIN addr size p.start p.size ∧
            p.pmp_attr &&& (if write then PMP_W else PMP_R) ≠ 0) := by
        unfold specAllowed
        constructor
        · rintro (h | h | ⟨i, ⟨hi, hQ⟩, _⟩)
          · exact absurd h h1
          · exact absurd h h2
          · exact ⟨d.partitions.get ⟨i, hi⟩, List.get_mem _ _ _, hQ⟩
        · rintro ⟨p, hp, hQp⟩
          refine Or.inr (Or.inr ?_)
          obtain ⟨⟨i, hi⟩, heq⟩ := List.mem_iff_get.mp hp
          refine ⟨i, ⟨hi, by rw [heq]; exact hQp⟩, ?_⟩
          rintro j ⟨hj, hQj⟩
          exact contains_unique hsz hdisj hj hi ⟨hQj.1, hQj.2.1⟩
            ⟨by rw [heq]; exact hQp.1, by rw [heq]; exact hQp.2.1⟩
      by_cases hex : ∃ p ∈ d.partitions, p.size ≠ 0 ∧
          IS_WITHIN addr size p.start p.size ∧
          p.pmp_attr &&& (if write then PMP_W else PMP_R) ≠ 0
      · rw [if_pos hex] at hval
        refine ⟨iff_of_true hval (hspec.mpr hex),
          iff_of_false ?_ (fun hn => hn (hspec.mpr hex))⟩
        intro h'
        rw [hval] at h'
        exact absurd (Option.some.inj h') (by decide)
      · rw [if_neg hex] at hval
        refine ⟨iff_of_false ?_ (fun hs => hex (hspec.mp hs)),
          iff_of_true hval (fun hs => hex (hspec.mp hs))⟩
        intro h'
        rw [hval] at h'
        exact absurd (Option.some.inj h') (by decide)

/-- Witness for (amended) C4: the claim's example configuration —
partitions `[0x1000, 0x2000)` RW and `[0x2000, 0x2800)` RO, own stack
`[0x3000, 0x4000)` — yields allowed for `(0x1000, 0x500, write)`, denied
for `(0x2400, 0x400, write)` and denied for `(0x1F00, 0x200, read)`. -/
theorem C4_arch_buffer_validate_spec_witness :
    arch_buffer_validate 0x3000 0x1000 0x100000 0x1000
      ⟨[⟨0x1000, 0x1000, 3⟩, ⟨0x2000, 0x800, 1⟩], 2, 0⟩
      0x1000 0x500 true = some 0 ∧
    arch_buffer_validate 0x3000 0x1000 0x100000 0x1000
      ⟨[⟨0x1000, 0x1000, 3⟩, ⟨0x2000, 0x800, 1⟩], 2, 0⟩
      0x2400 0x400 true = some (-1) ∧
    arch_buffer_validate 0x3000 0x1000 0x100000 0x1000
      ⟨[⟨0x1000, 0x1000, 3⟩, ⟨0x2000, 0x800, 1⟩], 2, 0⟩
      0x1F00 0x200 false = some (-1) := by
  refine ⟨?_, ?_, ?_⟩
  · apply (C4_arch_buffer_validate_spec 0x3000 0x1000 0x100000 0x1000
      ⟨[⟨0x1000, 0x1000, 3⟩, ⟨0x2000, 0x800, 1⟩], 2, 0⟩
      0x1000 0x500 true (by decide) (by decide) (by decide)).1.mpr
    refine Or.inr (Or.inr
      ⟨0, ⟨by decide, by decide, by decide, by decide⟩, ?_⟩)
    rintro j ⟨hj, hQj⟩
    have hj2 : j < 2 := hj
    interval_cases j
    · rfl
    · have hget : ((⟨[⟨0x1000, 0x1000, 3⟩, ⟨0x2000, 0x800, 1⟩], 2, 0⟩ :
          MemDomain).partitions.get ⟨1, hj⟩) = ⟨0x2000, 0x800, 1⟩ := rfl
      rw [hget] at hQj
      exact absurd hQj.2.1 (by decide)
  · apply (C4_arch_buffer_validate_spec 0x3000 0x1000 0x100000 0x1000
      ⟨[⟨0x1000, 0x1000, 3⟩, ⟨0x2000, 0x800, 1⟩], 2, 0⟩
      0x2400 0x400 true (by decide) (by decide) (by decide)).2.mpr
    rintro (h | h | ⟨i, ⟨hi, hQ⟩, _⟩)
    · exact absurd h (by decide)
    · exact absurd h.1 (by decide)
    · have hi2 : i < 2 := hi
      interval_cases i
      · have hget : ((⟨[⟨0x1000, 0x1000, 3⟩, ⟨0x2000, 0x800, 1⟩], 2, 0⟩ :
            MemDomain).partitions.get ⟨0, hi⟩) = ⟨0x1000, 0x1000, 3⟩ :=
          rfl
        rw [hget] at hQ
        exact absurd hQ.2.1 (by decide)
      · have hget : ((⟨[⟨0x1000, 0x1000, 3⟩, ⟨0x2000, 0x800, 1⟩], 2, 0⟩ :
            MemDomain).partitions.get ⟨1, hi⟩) = ⟨0x2000, 0x800, 1⟩ :=
          rfl
        rw [hget] at hQ
        exact absurd hQ.2.2 (by decide)
  · apply (C4_arch_buffer_validate_spec 0x3000 0x1000 0x100000 0x1000
      ⟨[⟨0x1000, 0x1000, 3⟩, ⟨0x2000, 0x800, 1⟩], 2, 0⟩
      0x1F00 0x200 false (by decide) (by decide) (by decide)).2.mpr
    rintro (h | h | ⟨i, ⟨hi, hQ⟩, _⟩)
    · exact absurd h (by decide)
    · exact absurd h.2 (by decide)
    · have hi2 : i < 2 := hi
      interval_cases i
      · have hget : ((⟨[⟨0x1000, 0x1000, 3⟩, ⟨0x2000, 0x800, 1⟩], 2, 0⟩ :
            MemDomain).partitions.get ⟨0, hi⟩) = ⟨0x1000, 0x1000, 3⟩ :=
          rfl
        rw [hget] at hQ
        exact absurd hQ.2.1 (by decide)
      · have hget : ((⟨[⟨0x1000, 0x1000, 3⟩, ⟨0x2000, 0x800, 1⟩], 2, 0⟩ :
            MemDomain).partitions.get ⟨1, hi⟩) = ⟨0x2000, 0x800, 1⟩ :=
          rfl
        rw [hget] at hQ
        exact absurd hQ.2.1 (by decide)

/-- Counterexample to claim C10 as stated: (a) the `arch_buffer_validate`
loop can terminate in bounds even when the precondition fails — here one
non-empty partition but `remaining = 5`, terminating via the `break` on a
containing partition — so the precondition is not "precisely" what makes
the loops terminate; (b) with two non-empty partitions and
`num_partitions = 1` (precondition "at least 1" satisfied), the resync
loop visits only the first non-empty partition, so not "each non-empty
partition is visited exactly once". -/
theorem C10_counterexample :
    (validate_loop true 0x1000 0x10 [⟨0x1000, 0x100, 3⟩] 5).isSome =
      true ∧
    ¬(5 ≤ (([⟨0x1000, 0x100, 3⟩] : List MemPartition).filter
      (fun p => p.size != 0)).length) ∧
    (resync_loop 32 8 [⟨0x1000, 0x100, 3⟩, ⟨0x2000, 0x100, 1⟩] 1 2
      (fun _ => 0) (fun _ => 0)).map (fun x => x.2.2.2) =
      some [⟨0x1000, 0x100, 3⟩] ∧
    (⟨0x2000, 0x100, 1⟩ : MemPartition).size ≠ 0 := by
  refine ⟨rfl, by decide, ?_, by decide⟩
  decide

/-- Claim C10, amended (partition-loop termination precondition): the
loops in `resync_pmp_domain` and `arch_buffer_validate` bound iteration
only by decrementing `remaining_partitions` on each non-empty partition.
The resync loop terminates reading only in-bounds partition cells
*precisely* when the array contains at least `num_partitions` entries of
nonzero size, and then visits exactly the first `num_partitions` non-empty
partitions, once each, in array order (all of them when the count is
exact).  The validator loop is in-bounds under the same precondition, but
— terminating early at the first containing partition — possibly also
without it. -/
theorem C10_partition_loop_bounds (w slots : Nat) (write : Bool)
    (bstart bsize : Nat) :
    (∀ (l : List MemPartition) (r index : Nat) (a c : Nat → Nat),
      (resync_loop w slots l r index a c).isSome = true ↔
        r ≤ (l.filter (fun p => p.size != 0)).length) ∧
    (∀ (l : List MemPartition) (r index : Nat) (a c : Nat → Nat) x,
      resync_loop w slots l r index a c = some x →
        x.2.2.2 = (l.filter (fun p => p.size != 0)).take r) ∧
    (∀ (l : List MemPartition) (r : Nat),
      r ≤ (l.filter (fun p => p.size != 0)).length →
      (validate_loop write bstart bsize l r).isSome = true) :=
  ⟨resync_loop_isSome_iff w slots,
   resync_loop_visited w slots,
   validate_loop_some_of_count write bstart bsize⟩

/-- Witness for (amended) C10: a two-partition array with
`num_partitions = 2` walks in bounds and visits both partitions in
order. -/
theorem C10_partition_loop_bounds_witness :
    (2 ≤ (([⟨0x1000, 0x100, 3⟩, ⟨0x2000, 0x100, 1⟩] :
      List MemPartition).filter (fun p => p.size != 0)).length) ∧
    (resync_loop 32 8 [⟨0x1000, 0x100, 3⟩, ⟨0x2000, 0x100, 1⟩] 2 2
      (fun _ => 0) (fun _ => 0)).isSome = true ∧
    (validate_loop false 0x5000 4
      [⟨0x1000, 0x100, 3⟩, ⟨0x2000, 0x100, 1⟩] 2).isSome = true := by
  refine ⟨by decide, ?_, ?_⟩
  · exact ((C10_partition_loop_bounds 32 8 false 0x5000 4).1
      [⟨0x1000, 0x100, 3⟩, ⟨0x2000, 0x100, 1⟩] 2 2 (fun _ => 0)
      (fun _ => 0)).mpr (by decide)
  · exact (C10_partition_loop_bounds 32 8 false 0x5000 4).2.2
      [⟨0x1000, 0x100, 3⟩, ⟨0x2000, 0x100, 1⟩] 2 (by decide)

/-- Claim C1 (encoder round-trip): for every 4-byte-aligned `start` and
`size` with `size > 0` (both machine-representable, the region lying
within the address space) and every cursor state in which `set_pmp_entry`
succeeds, decoding the slot entries it produced — as `print_pmp_entries`
does — yields exactly the address range `[start, start + size)` (i.e. the
inclusive pair `(start, start + size - 1)`) and exactly the permission
bits passed in: the last slot written decodes to the full range with the
requested permission, and the only other possible slot (the OFF range
marker of the two-slot shape) decodes to no range at all. -/
theorem C1_set_pmp_entry_roundtrip (w index perm start size : Nat)
    (a c : Nat → Nat) (index_limit : Nat)
    (hw : 3 ≤ w) (ha4 : start % 4 = 0) (hs4 : size % 4 = 0)
    (hpos : 0 < size) (hstart : start < 2 ^ w) (hsize : size < 2 ^ w)
    (hfit : start + size ≤ 2 ^ w) (hperm : perm &&& PMP_PERMS = perm)
    (hok : (set_pmp_entry w index perm start size a c index_limit).ok =
      true) :
    decodeEntry w
      (set_pmp_entry w index perm start size a c index_limit).pmp_addr
      (set_pmp_entry w index perm start size a c index_limit).pmp_cfg
      ((set_pmp_entry w index perm start size a c index_limit).index - 1) =
      (start, start + size - 1) ∧
    decodePerm
      ((set_pmp_entry w index perm start size a c index_limit).pmp_cfg
        ((set_pmp_entry w index perm start size a c index_limit).index -
          1)) = perm ∧
    (∀ i, index ≤ i →
      i < (set_pmp_entry w index perm start size a c index_limit).index -
        1 →
      decodeEntry w
        (set_pmp_entry w index perm start size a c index_limit).pmp_addr
        (set_pmp_entry w index perm start size a c index_limit).pmp_cfg
        i = (0, 0)) := by
  have hpermA : perm &&& PMP_A = 0 := perm_no_a_field hperm
  have hv4 : (start + size) % 4 = 0 := by omega
  have hwadd : wadd w start size = (start + size) % 2 ^ w := rfl
  by_cases h1 : index ≥ index_limit
  · rw [set_pmp_entry, if_pos h1] at hok
    exact absurd hok (by simp)
  by_cases h2 : (index = 0 ∧ start = 0) ∨
      (index ≠ 0 ∧ a (index - 1) = PMP_ADDR start)
  · rw [set_pmp_entry, if_neg h1, if_pos h2]
    dsimp only
    rw [Nat.add_sub_cancel]
    have hAfield : upd c index (perm ||| PMP_TOR) index &&& PMP_A =
        PMP_TOR := by
      rw [upd_same, a_field_of_or hpermA]
      decide
    refine ⟨?_, ?_, ?_⟩
    · apply decode_tor_slot _ _ index start (start + size) ?_ ha4 hstart
        hv4 (by omega) hfit ?_ hAfield
      · rcases h2 with ⟨hi0, hs0⟩ | ⟨hine, hprev⟩
        · exact Or.inl ⟨hi0, hs0⟩
        · refine Or.inr ⟨hine, ?_⟩
          rw [upd_other _ _ (by omega : index - 1 ≠ index)]
          exact hprev
      · rw [upd_same, hwadd]
    · rw [upd_same]
      exact decodePerm_or hperm (by decide)
    · intro i hi1 hi2
      omega
  by_cases h3 : size &&& wsub w size 1 = 0 ∧ start &&& wsub w size 1 = 0
  · obtain ⟨k, hk⟩ := pow_of_land_pred_eq_zero hpos
      (by rw [← wsub_one_eq hpos hsize]; exact h3.1)
    have hk2 : 2 ≤ k := by
      have h4d : (2 : Nat) ^ 2 ∣ 2 ^ k := by
        rw [← hk]
        exact (show (4 : Nat) = 2 ^ 2 by norm_num) ▸
          Nat.dvd_of_mod_eq_zero hs4
      exact (Nat.pow_dvd_pow_iff_le_right (by omega)).mp h4d
    have hal : start % 2 ^ k = 0 := by
      have := h3.2
      rw [wsub_one_eq hpos hsize, hk,
        Nat.and_pow_two_sub_one_eq_mod] at this
      exact this
    rw [set_pmp_entry, if_neg h1, if_neg h2, if_pos h3]
    dsimp only
    rw [Nat.add_sub_cancel]
    by_cases hna4 : size = 4
    · have hAfield : upd c index
          (perm ||| if size = 4 then PMP_NA4 else PMP_NAPOT) index &&&
          PMP_A = PMP_NA4 := by
        rw [upd_same, if_pos hna4, a_field_of_or hpermA]
        decide
      refine ⟨?_, ?_, ?_⟩
      · have hdec := decode_na4_slot
          (upd a index (PMP_ADDR_NAPOT w start size))
          (upd c index
            (perm ||| if size = 4 then PMP_NA4 else PMP_NAPOT))
          index hw ha4 (by omega) (by rw [upd_same, hna4]) hAfield
        rw [hdec, hna4]
        norm_num
      · rw [upd_same, if_pos hna4]
        exact decodePerm_or hperm (by decide)
      · intro i hi1 hi2
        omega
    · have hk3 : 3 ≤ k := by
        rcases Nat.lt_or_ge k 3 with hlt | hge
        · exfalso
          interval_cases k
          · exact hna4 (by omega)
        · exact hge
      have hAfield : upd c index
          (perm ||| if size = 4 then PMP_NA4 else PMP_NAPOT) index &&&
          PMP_A = PMP_NAPOT := by
        rw [upd_same, if_neg hna4, a_field_of_or hpermA]
        decide
      refine ⟨?_, ?_, ?_⟩
      · have hdec := decode_napot_slot
          (upd a index (PMP_ADDR_NAPOT w start size))
          (upd c index
            (perm ||| if size = 4 then PMP_NA4 else PMP_NAPOT))
          index hk3 hal (hk ▸ hfit) (hk ▸ hsize)
          (by rw [upd_same, hk]) hAfield
        rw [hdec, hk]
      · rw [upd_same, if_neg hna4]
        exact decodePerm_or hperm (by decide)
      · intro i hi1 hi2
        omega
  by_cases h4 : index + 1 ≥ index_limit
  · rw [set_pmp_entry, if_neg h1, if_neg h2, if_neg h3, if_pos h4] at hok
    exact absurd hok (by simp)
  · rw [set_pmp_entry, if_neg h1, if_neg h2, if_neg h3, if_neg h4]
    dsimp only
    rw [show index + 2 - 1 = index + 1 by omega]
    have hAfield : upd (upd c index 0) (index + 1) (perm ||| PMP_TOR)
        (index + 1) &&& PMP_A = PMP_TOR := by
      rw [upd_same, a_field_of_or hpermA]
      decide
    refine ⟨?_, ?_, ?_⟩
    · apply decode_tor_slot _ _ (index + 1) start (start + size) ?_ ha4
        hstart hv4 (by omega) hfit ?_ hAfield
      · refine Or.inr ⟨by omega, ?_⟩
        rw [Nat.add_sub_cancel,
          upd_other _ _ (by omega : index ≠ index + 1), upd_same]
      · rw [upd_same, hwadd]
    · rw [upd_same]
      exact decodePerm_or hperm (by decide)
    · intro i hi1 hi2
      have hieq : i = index := by omega
      have hcfg0 : upd (upd c index 0) (index + 1) (perm ||| PMP_TOR)
          i = 0 := by
        rw [hieq, upd_other _ _ (by omega : index ≠ index + 1), upd_same]
      unfold decodeEntry
      rw [hcfg0]
      rw [if_neg (by decide), if_neg (by decide), if_neg (by decide)]

/-- Witness for C1: encoding the aligned power-of-two region
`[0x80000, 0x82000)` with permission `R|X|L = 0x85` round-trips through
the decoder. -/
theorem C1_set_pmp_entry_roundtrip_witness :
    decodeEntry 32
      (set_pmp_entry 32 0 0x85 0x80000 0x2000 (fun _ => 0) (fun _ => 0)
        8).pmp_addr
      (set_pmp_entry 32 0 0x85 0x80000 0x2000 (fun _ => 0) (fun _ => 0)
        8).pmp_cfg
      ((set_pmp_entry 32 0 0x85 0x80000 0x2000 (fun _ => 0) (fun _ => 0)
        8).index - 1) = (0x80000, 0x80000 + 0x2000 - 1) ∧
    decodePerm
      ((set_pmp_entry 32 0 0x85 0x80000 0x2000 (fun _ => 0) (fun _ => 0)
        8).pmp_cfg
        ((set_pmp_entry 32 0 0x85 0x80000 0x2000 (fun _ => 0) (fun _ => 0)
          8).index - 1)) = 0x85 := by
  have h := C1_set_pmp_entry_roundtrip 32 0 0x85 0x80000 0x2000
    (fun _ => 0) (fun _ => 0) 8 (by decide) (by decide) (by decide)
    (by decide) (by decide) (by decide) (by decide) (by decide)
    (by decide)
  exact ⟨h.1, h.2.1⟩

/-- Counterexample to claim C3 as stated: at cursor position 0 (which has
a free slot), the sentinel `start = 0, size = 0` is encoded through the
TOR chaining path — the first branch of `set_pmp_entry` fires because
`index == 0 && start == 0` — not through the naturally-aligned
power-of-two path the claim requires. -/
theorem C3_counterexample :
    (set_pmp_entry 32 0 7 0 0 (fun _ => 0) (fun _ => 0) 8).ok = true ∧
    (set_pmp_entry 32 0 7 0 0 (fun _ => 0) (fun _ => 0) 8).pmp_cfg 0 &&&
      PMP_A = PMP_TOR ∧
    PMP_TOR ≠ PMP_NAPOT ∧ PMP_TOR ≠ PMP_NA4 := by
  decide

/-- Claim C3, amended (sentinel encoding): for every cursor position with
at least one free slot, `set_pmp_entry` with `start = 0, size = 0`
succeeds, consumes exactly one slot, and the produced entry decodes to the
entire address space (`[0, 2 ^ w - 1]`); it is encoded via the
naturally-aligned power-of-two (NAPOT) path whenever the chaining rule
does not apply, and via the chained top-of-range (TOR) path when the
cursor is 0 or the previous entry's address value is 0. -/
theorem C3_set_pmp_entry_sentinel (w index perm : Nat) (a c : Nat → Nat)
    (index_limit : Nat) (hw : 3 ≤ w) (hidx : index < index_limit)
    (hperm : perm &&& PMP_A = 0) :
    (set_pmp_entry w index perm 0 0 a c index_limit).ok = true ∧
    (set_pmp_entry w index perm 0 0 a c index_limit).index = index + 1 ∧
    decodeEntry w (set_pmp_entry w index perm 0 0 a c index_limit).pmp_addr
      (set_pmp_entry w index perm 0 0 a c index_limit).pmp_cfg index =
      (0, 2 ^ w - 1) ∧
    ((set_pmp_entry w index perm 0 0 a c index_limit).pmp_cfg index &&&
        PMP_A =
      if index = 0 ∨ a (index - 1) = 0 then PMP_TOR else PMP_NAPOT) := by
  have hlim : ¬index ≥ index_limit := by omega
  have h8 : (8 : Nat) ≤ 2 ^ w := by
    calc (8 : Nat) = 2 ^ 3 := by norm_num
    _ ≤ 2 ^ w := Nat.pow_le_pow_right (by omega) hw
  by_cases hchain : (index = 0 ∧ (0 : Nat) = 0) ∨
      (index ≠ 0 ∧ a (index - 1) = PMP_ADDR 0)
  · rw [set_pmp_entry, if_neg hlim, if_pos hchain]
    have hAfield : upd c index (perm ||| PMP_TOR) index &&& PMP_A =
        PMP_TOR := by
      rw [upd_same, a_field_of_or hperm]
      decide
    refine ⟨rfl, rfl, ?_, ?_⟩
    · apply decode_tor_slot _ _ index 0 (2 ^ w) _ (by decide)
        (Nat.two_pow_pos w) ?_ (Nat.two_pow_pos w) (Nat.le_refl _) ?_
        hAfield
      · rcases hchain with ⟨hi0, _⟩ | ⟨hine, hprev⟩
        · exact Or.inl ⟨hi0, rfl⟩
        · refine Or.inr ⟨hine, ?_⟩
          dsimp only
          rw [upd_other _ _ (by omega : index - 1 ≠ index)]
          exact hprev
      · have h4 : (2 : Nat) ^ 2 ∣ 2 ^ w := Nat.pow_dvd_pow 2 (by omega)
        have := Nat.mod_eq_zero_of_dvd h4
        simpa using this
      · dsimp only
        rw [upd_same, Nat.mod_self]
        rfl
    · rw [hAfield, if_pos ?_]
      rcases hchain with ⟨hi0, _⟩ | ⟨_, hprev⟩
      · exact Or.inl hi0
      · exact Or.inr hprev
  · have hi0 : index ≠ 0 := fun h => hchain (Or.inl ⟨h, rfl⟩)
    have hap : a (index - 1) ≠ 0 := fun h =>
      hchain (Or.inr ⟨hi0, by rw [h]; rfl⟩)
    rw [set_pmp_entry, if_neg hlim, if_neg hchain,
      if_pos ⟨Nat.zero_and _, Nat.zero_and _⟩]
    have hcfgv : upd c index
        (perm ||| if (0 : Nat) = 4 then PMP_NA4 else PMP_NAPOT) index =
        perm ||| PMP_NAPOT := by
      rw [upd_same, if_neg (by decide)]
    have hAfield : upd c index
        (perm ||| if (0 : Nat) = 4 then PMP_NA4 else PMP_NAPOT) index &&&
        PMP_A = PMP_NAPOT := by
      rw [hcfgv, a_field_of_or hperm]
      decide
    refine ⟨rfl, rfl, ?_, ?_⟩
    · apply decode_napot_sentinel _ _ index hw ?_ hAfield
      exact upd_same _ _ _
    · rw [hAfield, if_neg ?_]
      rintro (h | h)
      · exact hi0 h
      · exact hap h

/-- Witness for (amended) C3: the sentinel at cursor 1 with a nonzero
previous address is NAPOT-encoded and decodes to the whole 32-bit address
space. -/
theorem C3_set_pmp_entry_sentinel_witness :
    decodeEntry 32
      (set_pmp_entry 32 1 7 0 0 (fun _ => 5) (fun _ => 0) 8).pmp_addr
      (set_pmp_entry 32 1 7 0 0 (fun _ => 5) (fun _ => 0) 8).pmp_cfg 1 =
      (0, 2 ^ 32 - 1) :=
  (C3_set_pmp_entry_sentinel 32 1 7 (fun _ => 5) (fun _ => 0) 8
    (by decide) (by decide) (by decide)).2.2.1

/-- Counterexample to claim C2 as stated: the sentinel request
`start = 0, size = 0` at cursor 1 with a nonzero previous address does not
chain, is not a power-of-two size `≥ 8` nor size `4`, yet a successful
`set_pmp_entry` advances the cursor by exactly 1 (through the code's
power-of-two branch, whose bit test `size & (size - 1) == 0 &&
start & (size - 1) == 0` also accepts `size == 0` with `start == 0`),
where the claim predicts an advance of 2. -/
theorem C2_counterexample :
    (set_pmp_entry 32 1 3 0 0 (fun i => if i = 0 then 1 else 0)
      (fun _ => 0) 4).ok = true ∧
    (set_pmp_entry 32 1 3 0 0 (fun i => if i = 0 then 1 else 0)
      (fun _ => 0) 4).index = 1 + 1 ∧
    ¬((1 = 0 ∧ (0 : Nat) = 0) ∨
      (1 ≠ 0 ∧ (if (0 : Nat) = 0 then (1 : Nat) else 0) = 0 / 4)) ∧
    (0 : Nat) ≠ 4 ∧ ¬(∃ k, 3 ≤ k ∧ (0 : Nat) = 2 ^ k) := by
  refine ⟨by decide, by decide, by decide, by decide, ?_⟩
  rintro ⟨k, _, hk⟩
  have := Nat.two_pow_pos k
  omega

/-- Claim C2, amended (encoder slot consumption): a successful
`set_pmp_entry` call advances the cursor by exactly 1 iff the region chains
(very first entry with `start = 0`, or the previous entry's encoded address
equals `start / 4`), or `size` is a power of two `2 ^ k` with `k ≥ 2`
(covering both the `size = 4` NA4 variant and the `size ≥ 8` NAPOT
variant) and `start` naturally aligned to it, or the request is the
whole-address-space sentinel `start = 0, size = 0` (also taken by the
power-of-two branch); every other aligned shape advances the cursor by
exactly 2. -/
theorem C2_set_pmp_entry_slot_consumption (w index perm start size : Nat)
    (a c : Nat → Nat) (index_limit : Nat)
    (hstart : start < 2 ^ w) (hsize : size < 2 ^ w) (hs4 : size % 4 = 0)
    (hok : (set_pmp_entry w index perm start size a c index_limit).ok =
      true) :
    ((set_pmp_entry w index perm start size a c index_limit).index =
        index + 1 ↔
      ((index = 0 ∧ start = 0) ∨ (index ≠ 0 ∧ a (index - 1) = start / 4)) ∨
      (∃ k, 2 ≤ k ∧ size = 2 ^ k ∧ start % 2 ^ k = 0) ∨
      (start = 0 ∧ size = 0)) ∧
    ((set_pmp_entry w index perm start size a c index_limit).index =
        index + 1 ∨
     (set_pmp_entry w index perm start size a c index_limit).index =
        index + 2) := by
  have hdiv : PMP_ADDR start = start / 4 := by
    unfold PMP_ADDR
    rw [Nat.shiftRight_eq_div_pow]
  by_cases h1 : index ≥ index_limit
  · rw [set_pmp_entry, if_pos h1] at hok
    exact absurd hok (by simp)
  by_cases h2 : (index = 0 ∧ start = 0) ∨
      (index ≠ 0 ∧ a (index - 1) = PMP_ADDR start)
  · rw [set_pmp_entry, if_neg h1, if_pos h2]
    refine ⟨iff_of_true rfl (Or.inl ?_), Or.inl rfl⟩
    rwa [hdiv] at h2
  by_cases h3 : size &&& wsub w size 1 = 0 ∧ start &&& wsub w size 1 = 0
  · rw [set_pmp_entry, if_neg h1, if_neg h2, if_pos h3]
    refine ⟨iff_of_true rfl ?_, Or.inl rfl⟩
    rcases Nat.eq_zero_or_pos size with hz | hpos
    · subst hz
      refine Or.inr (Or.inr ⟨?_, rfl⟩)
      have := h3.2
      rw [wsub_zero_one, Nat.and_pow_two_sub_one_eq_mod,
        Nat.mod_eq_of_lt hstart] at this
      exact this
    · obtain ⟨k, rfl⟩ := pow_of_land_pred_eq_zero hpos
        (by rw [← wsub_one_eq hpos hsize]; exact h3.1)
      refine Or.inr (Or.inl ⟨k, ?_, rfl, ?_⟩)
      · have h4 : (2 : Nat) ^ 2 ∣ 2 ^ k :=
          (show (4 : Nat) = 2 ^ 2 by decide) ▸ Nat.dvd_of_mod_eq_zero hs4
        exact (Nat.pow_dvd_pow_iff_le_right (by omega)).mp h4
      · have := h3.2
        rw [wsub_one_eq hpos hsize,
          Nat.and_pow_two_sub_one_eq_mod] at this
        exact this
  by_cases h4 : index + 1 ≥ index_limit
  · rw [set_pmp_entry, if_neg h1, if_neg h2, if_neg h3, if_pos h4] at hok
    exact absurd hok (by simp)
  · rw [set_pmp_entry, if_neg h1, if_neg h2, if_neg h3, if_neg h4]
    refine ⟨iff_of_false (by simp) ?_, Or.inr rfl⟩
    rintro (hch | ⟨k, hk2, rfl, hal⟩ | ⟨hst, hsz⟩)
    · rw [← hdiv] at hch
      exact h2 hch
    · refine h3 ⟨?_, ?_⟩
      · rw [wsub_one_eq (Nat.two_pow_pos k) hsize]
        exact land_eq_zero_of_disjoint (Nat.mod_self _) (by omega)
      · rw [wsub_one_eq (Nat.two_pow_pos k) hsize,
          Nat.and_pow_two_sub_one_eq_mod]
        exact hal
    · subst hst; subst hsz
      exact h3 ⟨Nat.zero_and _, Nat.zero_and _⟩

/-- Witness for (amended) C2: a naturally aligned power-of-two region
(`start = 0x1000`, `size = 0x1000 = 2 ^ 12`) at a non-chaining cursor
consumes exactly one slot. -/
theorem C2_set_pmp_entry_slot_consumption_witness :
    (set_pmp_entry 32 1 3 0x1000 0x1000 (fun _ => 1) (fun _ => 0) 8).index =
      1 + 1 :=
  (C2_set_pmp_entry_slot_consumption 32 1 3 0x1000 0x1000 (fun _ => 1)
    (fun _ => 0) 8 (by decide) (by decide) (by decide) (by decide)).1.mpr
    (Or.inr (Or.inl ⟨12, by decide, by decide, by decide⟩))

/-- Claim C7 (writer precondition defense): for every `start`, `end` and
`index_limit` violating `start < end ≤ index_limit`, `write_pmp_entries`
panics without invoking the external hardware write primitive — the panic
guard is an ordinary `if`, active even with assertions compiled out — and
for every argument tuple satisfying the precondition it proceeds to the
hardware write. -/
theorem C7_write_pmp_entries_guard (stride start e : Nat) (ct : Bool)
    (a cfg : Nat → Nat) (index_limit : Nat) :
    (write_pmp_entries stride start e ct a cfg index_limit = .panicked ↔
      ¬(start < e ∧ e ≤ index_limit)) ∧
    ((start < e ∧ e ≤ index_limit) → ∃ cfg',
      write_pmp_entries stride start e ct a cfg index_limit =
        .invoked start e ct a cfg') := by
  constructor
  · by_cases h : start ≥ e ∨ e > index_limit
    · rw [write_pmp_entries, if_pos h]
      exact iff_of_true rfl (by omega)
    · rw [write_pmp_entries, if_neg h]
      exact iff_of_false (fun hx => by cases hx) (by omega)
  · intro hpre
    rw [write_pmp_entries, if_neg (by omega)]
    exact ⟨_, rfl⟩

/-- Witness for C7: the panic guard fires at the concrete malformed range
`start = end = 1`, and a valid range `[0, 1) ⊆ [0, 4)` reaches the write
primitive. -/
theorem C7_write_pmp_entries_guard_witness :
    write_pmp_entries 8 1 1 false (fun _ => 0) (fun _ => 0) 4 =
      .panicked ∧
    (∃ cfg', write_pmp_entries 8 0 1 false (fun _ => 0) (fun _ => 0) 4 =
      .invoked 0 1 false (fun _ => 0) cfg') :=
  ⟨(C7_write_pmp_entries_guard 8 1 1 false (fun _ => 0) (fun _ => 0) 4).1.mpr
      (by decide),
   (C7_write_pmp_entries_guard 8 0 1 false (fun _ => 0) (fun _ => 0) 4).2
      (by decide)⟩

/-- Claim C8 (trailing-clear framing): with `clear_trailing` set and a
valid range, before the external write primitive is invoked every config
byte from `end` up to (exclusive) the next `PMPCFG_STRIDE` boundary is
zeroed, every config byte below `end` (and beyond the boundary) is left
unchanged, and the address array is passed through untouched; with
`clear_trailing` unset no shadow-store byte is modified at all. -/
theorem C8_write_pmp_entries_trailing_clear (stride start e : Nat)
    (a cfg : Nat → Nat) (index_limit : Nat) (hs : 0 < stride)
    (h1 : start < e) (h2 : e ≤ index_limit) :
    (∃ cfg',
      write_pmp_entries stride start e true a cfg index_limit =
        .invoked start e true a cfg' ∧
      (∀ i, i < e → cfg' i = cfg i) ∧
      (∀ i, e ≤ i → i < (e + stride - 1) / stride * stride → cfg' i = 0) ∧
      (∀ i, (e + stride - 1) / stride * stride ≤ i → cfg' i = cfg i)) ∧
    write_pmp_entries stride start e false a cfg index_limit =
      .invoked start e false a cfg := by
  have hb := next_stride_boundary e hs
  have hct := clear_tail_eq hs ((stride - e % stride) % stride) e cfg rfl
  constructor
  · refine ⟨clear_tail stride cfg e, ?_, ?_, ?_, ?_⟩
    · rw [write_pmp_entries, if_neg (by omega)]
      rfl
    · intro i hi
      rw [hct]
      exact if_neg (by omega)
    · intro i hi1 hi2
      rw [hct]
      exact if_pos (by omega)
    · intro i hi
      rw [hct]
      exact if_neg (by omega)
  · rw [write_pmp_entries, if_neg (by omega)]
    rfl

/-- Witness for C8: stride 4, range `[0, 5)` in capacity 8 — bytes 5, 6, 7
are cleared, bytes below 5 are untouched. -/
theorem C8_write_pmp_entries_trailing_clear_witness :
    (∃ cfg', write_pmp_entries 4 0 5 true (fun _ => 9) (fun _ => 9) 8 =
        .invoked 0 5 true (fun _ => 9) cfg' ∧
      (∀ i, i < 5 → cfg' i = 9) ∧
      (∀ i, 5 ≤ i → i < 8 → cfg' i = 0) ∧
      (∀ i, 8 ≤ i → cfg' i = 9)) ∧
    write_pmp_entries 4 0 5 false (fun _ => 9) (fun _ => 9) 8 =
      .invoked 0 5 false (fun _ => 9) (fun _ => 9) := by
  have h := C8_write_pmp_entries_trailing_clear 4 0 5 (fun _ => 9)
    (fun _ => 9) 8 (by decide) (by decide) (by decide)
  exact h

/-- Claim C9 (encoder atomicity on failure): whenever `set_pmp_entry`
returns `false` — slot exhaustion in either the one-slot or the two-slot
case — it leaves the cursor and both shadow arrays exactly as they were on
entry. -/
theorem C9_set_pmp_entry_failure_frame (w index perm start size : Nat)
    (a c : Nat → Nat) (index_limit : Nat)
    (h : (set_pmp_entry w index perm start size a c index_limit).ok =
      false) :
    set_pmp_entry w index perm start size a c index_limit =
      ⟨false, index, a, c⟩ := by
  unfold set_pmp_entry at h ⊢
  repeat' split
  all_goals simp_all

/-- Witness for C9: a concrete exhausted call (capacity 0) returns with the
cursor and arrays unchanged. -/
theorem C9_set_pmp_entry_failure_frame_witness :
    set_pmp_entry 32 0 3 4 8 (fun _ => 7) (fun _ => 7) 0 =
      ⟨false, 0, fun _ => 7, fun _ => 7⟩ :=
  C9_set_pmp_entry_failure_frame 32 0 3 4 8 (fun _ => 7) (fun _ => 7) 0 rfl

end Pmp
